import Mathlib

/-!
# sql-to-struct: the DDL extractor and the name / type normaliser

A shallow embedding of `main.go`.  Go strings are modelled as lists of runes
(`Str`), Go runtime panics as the error side of `Except Panic`, and the calls
into the Go standard library (`regexp`, `strings`, `bytes`, `unicode`) by
executable definitions that follow the documented behaviour of those
routines.  Two parts of the library are a parameter of the model (`Library`):
the Unicode case tables above U+007F, and `regexp` on a pattern text built
from a table name that holds metacharacters.
-/

namespace SqlToStruct

/-- A Go string, as its sequence of runes. -/
abbrev Str := List Char

/-- The run-time failures the program can raise. -/
inductive Panic where
  /-- `panic: runtime error: index out of range [i] with length n`. -/
  | indexOutOfRange (i n : Nat)
  /-- `panic: regexp: Compile(pattern): error parsing regexp: ...`, raised by
  `regexp.MustCompile` on a text that is not a regular expression. -/
  | regexpCompile (pattern : Str)
  /-- `panic: runtime error: slice bounds out of range [:hi] with length n`. -/
  | sliceBoundsOutOfRange (hi n : Nat)
  deriving DecidableEq, Repr

deriving instance DecidableEq for Except

/-! ## Output flavours -/

/-- The type `OutputType` of `main.go` with its three constants. -/
inductive OutputType where
  /-- The constant `sqlTable`. -/
  | sqlTable
  /-- The constant `sqlTableWithJSON`. -/
  | sqlTableWithJSON
  /-- The constant `sbTable`. -/
  | sbTable
  deriving DecidableEq, Repr

/-- The variable `defaultOutputTypes` of `main.go`. -/
def defaultOutputTypes : List OutputType := [.sqlTableWithJSON, .sbTable]

/-- Go's `len` on a string: the number of bytes of its UTF-8 encoding. -/
def byteLen (s : Str) : Nat := (s.map Char.utf8Size).sum

/-! ## Type mapping -/

/-- The function `columnTypeToGo` of `main.go`: a `switch` on the SQL type in
which the integer cases assign `t` and fall out of the switch, the other
cases return at once, and the code after the switch prefixes `t` with `u`
for an unsigned column. -/
def columnTypeToGo (rawType : Str) (unsigned : Bool) : Str :=
  let fallOut (t : Str) : Str := if unsigned then "u".toList ++ t else t
  if rawType = "int".toList ∨ rawType = "mediumint".toList then fallOut "int32".toList
  else if rawType = "tinyint".toList then fallOut "int8".toList
  else if rawType = "smallint".toList then fallOut "int16".toList
  else if rawType = "bigint".toList then fallOut "int64".toList
  else if rawType = "bool".toList then "bool".toList
  else if rawType = "float".toList then "float32".toList
  else if rawType = "double".toList then "float64".toList
  else if rawType = "varchar".toList ∨ rawType = "char".toList ∨ rawType = "text".toList
      ∨ rawType = "tinytext".toList ∨ rawType = "mediumtext".toList
      ∨ rawType = "longtext".toList then "string".toList
  else if rawType = "binary".toList ∨ rawType = "varbinary".toList ∨ rawType = "blob".toList
      ∨ rawType = "TinyBlob".toList ∨ rawType = "mediumblob".toList
      ∨ rawType = "longblob".toList then "[]byte".toList
  else if rawType = "datetime".toList then "time.Time".toList
  else fallOut []

/-! ## Runes and the `unicode`, `bytes` and `strings` routines -/

/-- The two parts of the Go standard library that are not reproduced here and
are a parameter of the model.

The case tables of the `unicode` package for the runes above U+007F
(`unicode.ToLower`, `unicode.ToUpper` and `unicode.ToTitle` there); ASCII runes
never consult them.

The `regexp` package on the pattern texts that the fragment `Re` below does
not cover.  The three patterns of `main.go` are in the fragment, and so is
the third one with a table name that holds no metacharacter; a table name
from the command line that holds metacharacters is read by the library. -/
structure Library where
  /-- The lower-case mapping of a rune above U+007F. -/
  lower : Char → Char
  /-- The upper-case mapping of a rune above U+007F. -/
  upper : Char → Char
  /-- The title-case mapping of a rune above U+007F. -/
  title : Char → Char
  /-- Whether `regexp.Compile` accepts the pattern text. -/
  compiles : Str → Bool
  /-- The slice `regexp.MustCompile(pattern).FindStringSubmatch(s)` for a
  pattern text that compiles. -/
  find : Str → Str → List Str

/-- A library that leaves every rune above U+007F unchanged and accepts no
pattern text.  It stands for every library on ASCII text and table names
without metacharacters, which consult neither part. -/
def Library.ascii : Library := ⟨id, id, id, fun _ => false, fun _ _ => []⟩

/-- The test `'a' <= r && r <= 'z'`. -/
def isLowerAZ (r : Char) : Bool := 97 ≤ r.toNat && r.toNat ≤ 122

/-- The test `'A' <= r && r <= 'Z'`. -/
def isUpperAZ (r : Char) : Bool := 65 ≤ r.toNat && r.toNat ≤ 90

/-- The test `'0' <= r && r <= '9'`. -/
def isDigit09 (r : Char) : Bool := 48 ≤ r.toNat && r.toNat ≤ 57

/-- Go's `unicode.ToLower`: `r += 'a' - 'A'` for an ASCII capital, the rune
itself for the other ASCII runes, the case table above U+007F. -/
def unicodeToLower (U : Library) (r : Char) : Char :=
  if r.toNat ≤ 0x7F then (if isUpperAZ r then Char.ofNat (r.toNat + 32) else r)
  else U.lower r

/-- Go's `unicode.ToUpper`: `r -= 'a' - 'A'` for an ASCII small letter. -/
def unicodeToUpper (U : Library) (r : Char) : Char :=
  if r.toNat ≤ 0x7F then (if isLowerAZ r then Char.ofNat (r.toNat - 32) else r)
  else U.upper r

/-- Go's `unicode.ToTitle`, which agrees with `unicode.ToUpper` on ASCII. -/
def unicodeToTitle (U : Library) (r : Char) : Char :=
  if r.toNat ≤ 0x7F then (if isLowerAZ r then Char.ofNat (r.toNat - 32) else r)
  else U.title r

/-- Go's `unicode.IsSpace` on the runes above U+007F: U+0085 and U+00A0 in
Latin-1, and the `White_Space` property beyond. -/
def unicodeIsSpaceHigh (r : Char) : Bool :=
  let n := r.toNat
  n = 0x85 || n = 0xA0 || n = 0x1680 || (0x2000 ≤ n && n ≤ 0x200A) || n = 0x2028
    || n = 0x2029 || n = 0x202F || n = 0x205F || n = 0x3000

/-- The helper `isSeparator` of Go's `strings` package: ASCII letters, digits
and the underscore are not separators and every other ASCII rune is; above
U+007F letters and digits are not separators and, of the rest, exactly the
spaces are (no letter or digit is a space, so the test is `unicode.IsSpace`). -/
def isSeparator (r : Char) : Bool :=
  if r.toNat ≤ 0x7F then !(isDigit09 r || isLowerAZ r || isUpperAZ r || r = '_')
  else unicodeIsSpaceHigh r

/-- The loop of `strings.Title`: a rune is title-cased when the rune before
it is a separator. -/
def titleFrom (U : Library) : Char → Str → Str
  | _, [] => []
  | prev, r :: rs => (if isSeparator prev then unicodeToTitle U r else r) :: titleFrom U r rs

/-- Go's `strings.Title`: every letter that begins a word is mapped to its
title case; the scan starts with `prev = ' '`. -/
def stringsTitle (U : Library) (s : Str) : Str := titleFrom U ' ' s

/-- Go's `strings.ToUpper`. -/
def stringsToUpper (U : Library) (s : Str) : Str := s.map (unicodeToUpper U)

/-- Go's `bytes.ToLower`. -/
def bytesToLower (U : Library) (s : Str) : Str := s.map (unicodeToLower U)

/-- Go's `strings.Split(s, sep)` for a separator of one rune: the pieces of
`s` between the occurrences of `sep`, one more than there are occurrences. -/
def stringsSplit (s : Str) (sep : Char) : List Str :=
  match s with
  | [] => [[]]
  | r :: rs =>
    if r = sep then [] :: stringsSplit rs sep
    else
      match stringsSplit rs sep with
      | [] => [[r]]
      | p :: ps => (r :: p) :: ps

/-- Go's `strings.Join(parts, sep)`. -/
def stringsJoin : List Str → Str → Str
  | [], _ => []
  | [a], _ => a
  | a :: b :: rest, sep => a ++ sep ++ stringsJoin (b :: rest) sep

/-! ## The mode argument -/

/-- The loop of `parseMode` over the names between `+` signs: a known name
appends its flavour, any other name is passed over. -/
def modesLoop : List Str → List OutputType → List OutputType
  | [], outputTypes => outputTypes
  | mode :: modes, outputTypes =>
    if mode = "sql".toList then modesLoop modes (outputTypes ++ [.sqlTable])
    else if mode = "json".toList then modesLoop modes (outputTypes ++ [.sqlTableWithJSON])
    else if mode = "sb".toList then modesLoop modes (outputTypes ++ [.sbTable])
    else modesLoop modes outputTypes

/-- The function `parseMode` of `main.go`.  The slice expression `mode[:5]`
panics when the string has fewer than five bytes; otherwise it equals `mode=`
exactly when the first five runes of the string are those of `mode=`, and
then `mode[5:]` is the string without these five runes. -/
def parseMode (mode : Str) : Except Panic (List OutputType) :=
  if byteLen mode < 5 then .error (.sliceBoundsOutOfRange 5 (byteLen mode))
  else if mode.take 5 = "mode=".toList then
    let mode := mode.drop 5
    let modes := stringsSplit mode '+'
    let outputTypes := modesLoop modes []
    if outputTypes.length > 0 then .ok outputTypes else .ok defaultOutputTypes
  else .ok defaultOutputTypes

/-! ## Name casing -/

/-- The slice `upperWords` of `main.go`. -/
def upperWords : List Str :=
  ["id".toList, "dns".toList, "uuid".toList, "ldap".toList, "ad".toList, "dn".toList,
    "sha256".toList, "md5".toList, "sso".toList, "otp".toList, "totp".toList, "os".toList,
    "sdk".toList, "ipa".toList]

/-- The map literal that initialises `transformer` in `main.go`. -/
def transformerLiteral : List (Str × Str) :=
  [("ips".toList, "IPs".toList), ("mysql".toList, "MySQL".toList),
    ("sqlite".toList, "SQLite".toList), ("userid".toList, "UserID".toList)]

/-- The map assignment `m[k] = v`. -/
def mapSet (m : List (Str × Str)) (k v : Str) : List (Str × Str) :=
  match m with
  | [] => [(k, v)]
  | (k', v') :: rest => if k' = k then (k, v) :: rest else (k', v') :: mapSet rest k v

/-- The map read `v, ok := m[k]`. -/
def mapGet (m : List (Str × Str)) (k : Str) : Option Str :=
  match m with
  | [] => none
  | (k', v') :: rest => if k' = k then some v' else mapGet rest k

/-- The function `init` of `main.go`, applied to the map literal: every word
of `upperWords` is entered with its upper-cased form. -/
def init (U : Library) : List (Str × Str) :=
  upperWords.foldl (fun m k => mapSet m k (stringsToUpper U k)) transformerLiteral

/-- The package variable `transformer` once the package is initialised. -/
def transformer (U : Library) : List (Str × Str) := init U

/-- The function `title` of `main.go`. -/
def title (U : Library) (s : Str) : Str :=
  match mapGet (transformer U) s with
  | some t => t
  | none => stringsTitle U s

/-- The function `camelCase` of `main.go`. -/
def camelCase (U : Library) (s : Str) : Str :=
  if s = [] then []
  else
    let parts := stringsSplit s '_'
    if parts.length = 1 then title U s
    else stringsJoin (parts.map (title U)) []

/-! ## The schema model -/

/-- The struct `Column` of `main.go`. -/
structure Column where
  RawName : Str
  Name : Str
  RawType : Str
  Type' : Str
  Unsigned : Bool
  deriving DecidableEq, Repr

/-- The struct `Table` of `main.go`. -/
structure Table where
  RawName : Str
  Name : Str
  Columns : List Column
  deriving DecidableEq, Repr

/-- The function `newTable` of `main.go`; `Columns` starts as the nil slice. -/
def newTable (U : Library) (rawName : Str) : Table :=
  { RawName := rawName, Name := camelCase U rawName, Columns := [] }

/-- The function `newColumn` of `main.go`. -/
def newColumn (U : Library) (rawName rawType : Str) (unsigned : Bool) : Column :=
  { RawName := rawName, Name := camelCase U rawName, RawType := rawType,
    Type' := columnTypeToGo rawType unsigned, Unsigned := unsigned }

/-! ## Regular expressions

Go's `regexp` package matches with leftmost-first semantics: the match starts
at the leftmost possible position and, there, is the one a backtracking search
finds first.  The matcher below is that backtracking search, in
continuation-passing style, for the operators the three patterns of `main.go`
use. -/

/-- The regular expressions used by the patterns of `main.go`. -/
inductive Re where
  /-- The empty expression. -/
  | eps
  /-- One literal rune. -/
  | char (c : Char)
  /-- One rune of a class (`\w`, `\s`, or `.` under the flag `s`). -/
  | cls (p : Char → Bool)
  /-- Concatenation. -/
  | seq (a b : Re)
  /-- The repetition `a*` (greedy) or `a*?` (lazy). -/
  | star (a : Re) (greedy : Bool)
  /-- The option `a?` (greedy) or `a??` (lazy). -/
  | opt (a : Re) (greedy : Bool)
  /-- The capture group number `i`. -/
  | group (i : Nat) (a : Re)

/-- The captures recorded so far, the latest first. -/
abbrev Caps := List (Nat × Str)

/-- What remains to be matched: a function of the rest of the input and of
the captures. -/
abbrev Cont := Str → Caps → Option (Caps × Str)

/-- Ordered choice: the second alternative is tried when the first fails. -/
def orElse (a b : Option (Caps × Str)) : Option (Caps × Str) :=
  match a with
  | some r => some r
  | none => b

/-- The iterations of a repetition.  An iteration has to consume input, so
the length of the input bounds the number of iterations. -/
def starLoop (step : Cont → Cont) (greedy : Bool) (k : Cont) : Nat → Cont
  | 0, s, c => k s c
  | n + 1, s, c =>
    let again : Cont := fun s' c' =>
      if s'.length < s.length then starLoop step greedy k n s' c' else none
    if greedy then orElse (step again s c) (k s c) else orElse (k s c) (step again s c)

/-- The backtracking matcher: `matchRe re k s c` matches `re` at the start of
`s` and hands the rest of the input to `k`. -/
def matchRe : Re → Cont → Cont
  | .eps, k, s, c => k s c
  | .char ch, k, s, c =>
    match s with
    | x :: xs => if x = ch then k xs c else none
    | [] => none
  | .cls p, k, s, c =>
    match s with
    | x :: xs => if p x then k xs c else none
    | [] => none
  | .seq a b, k, s, c => matchRe a (matchRe b k) s c
  | .star a g, k, s, c => starLoop (matchRe a) g k s.length s c
  | .opt a g, k, s, c =>
    if g then orElse (matchRe a k s c) (k s c) else orElse (k s c) (matchRe a k s c)
  | .group i a, k, s, c =>
    matchRe a (fun s' c' => k s' ((i, s.take (s.length - s'.length)) :: c')) s c

/-- The number of capture groups (`NumSubexp`). -/
def Re.ncap : Re → Nat
  | .eps => 0
  | .char _ => 0
  | .cls _ => 0
  | .seq a b => max a.ncap b.ncap
  | .star a _ => a.ncap
  | .opt a _ => a.ncap
  | .group i a => max i a.ncap

/-- A literal string. -/
def Re.lit (s : Str) : Re := s.foldr (fun ch r => .seq (.char ch) r) .eps

/-- The concatenation of a list of expressions. -/
def Re.cat (rs : List Re) : Re := rs.foldr .seq .eps

/-- The repetition `a+` (greedy) or `a+?` (lazy). -/
def Re.plus (a : Re) (greedy : Bool) : Re := .seq a (.star a greedy)

/-- The text of capture group `i`, empty when the group took no part. -/
def capture : Caps → Nat → Str
  | [], _ => []
  | (j, s) :: rest, i => if j = i then s else capture rest i

/-- The continuation that ends a match. -/
def accept : Cont := fun s c => some (c, s)

/-- The match that starts at the very beginning of `s`, as the slice
`[whole, group 1, ..., group n]` together with the length of the match. -/
def matchAt (re : Re) (s : Str) : Option (List Str × Nat) :=
  match matchRe re accept s [] with
  | none => none
  | some (c, s') =>
    let n := s.length - s'.length
    some (s.take n :: (List.range re.ncap).map (fun i => capture c (i + 1)), n)

/-- The scan of `FindAllStringSubmatch`: `skip` counts the runes that still
belong to the previous match and `adj` says that the previous match ended at
the current position (an empty match there is dropped). -/
def findAllFrom (re : Re) : Str → Nat → Bool → List (List Str)
  | [], _, adj =>
    match matchAt re [] with
    | some (m, _) => if adj then [] else [m]
    | none => []
  | _ :: xs, skip + 1, _ => findAllFrom re xs skip true
  | x :: xs, 0, adj =>
    match matchAt re (x :: xs) with
    | none => findAllFrom re xs 0 false
    | some (m, 0) => if adj then findAllFrom re xs 0 false else m :: findAllFrom re xs 0 false
    | some (m, n + 1) => m :: findAllFrom re xs n true

/-- Go's `(*Regexp).FindAllStringSubmatch(s, -1)`: the successive
non-overlapping matches, each with its groups. -/
def findAllStringSubmatch (re : Re) (s : Str) : List (List Str) := findAllFrom re s 0 false

/-- Go's `(*Regexp).FindStringSubmatch(s)`: the leftmost match with its
groups, and the nil slice when there is none. -/
def findStringSubmatch (re : Re) : Str → List Str
  | [] =>
    match matchAt re [] with
    | some (m, _) => m
    | none => []
  | x :: xs =>
    match matchAt re (x :: xs) with
    | some (m, _) => m
    | none => findStringSubmatch re xs

/-- The class `\w`: `[0-9A-Za-z_]`. -/
def isWord (r : Char) : Bool := isDigit09 r || isLowerAZ r || isUpperAZ r || r = '_'

/-- The class `\s`: `[\t\n\f\r ]`. -/
def isSpace (r : Char) : Bool := r = '\t' || r = '\n' || r = '\x0c' || r = '\r' || r = ' '

/-- The class of `.` under the flag `s`: every rune. -/
def isAny (_ : Char) : Bool := true

/-- The variable `pattern1` of `main.go`:
"(?s)create table if not exists \x60(\\w+)\x60(.+?)\\)\\s*engine". -/
def pattern1 : Re :=
  Re.cat [Re.lit "create table if not exists `".toList,
    .group 1 (Re.plus (.cls isWord) true), .char '`',
    .group 2 (Re.plus (.cls isAny) false),
    .char ')', .star (.cls isSpace) true, Re.lit "engine".toList]

/-- The variable `pattern2` of `main.go`:
"\x60(\\w+)\x60\\s+(\\w+)\\s*(\\w+)?". -/
def pattern2 : Re :=
  Re.cat [.char '`', .group 1 (Re.plus (.cls isWord) true), .char '`',
    Re.plus (.cls isSpace) true, .group 2 (Re.plus (.cls isWord) true),
    .star (.cls isSpace) true, .opt (.group 3 (Re.plus (.cls isWord) true)) true]

/-- The runes with a meaning of their own in the pattern syntax. -/
def isMeta (r : Char) : Bool :=
  r = '\\' || r = '.' || r = '+' || r = '*' || r = '?' || r = '(' || r = ')' || r = '|'
    || r = '[' || r = ']' || r = '{' || r = '}' || r = '^' || r = '$'

/-- A compiled regular expression (Go's `*regexp.Regexp`): an expression of
the fragment, which the matcher above runs, or a pattern text that the
library has compiled. -/
inductive Regexp where
  /-- An expression of the fragment. -/
  | re (r : Re)
  /-- A pattern text compiled by the library. -/
  | text (pattern : Str)

/-- Go's `(*Regexp).FindStringSubmatch(s)` on a compiled expression. -/
def Regexp.findStringSubmatch (U : Library) : Regexp → Str → List Str
  | .re r, s => SqlToStruct.findStringSubmatch r s
  | .text pattern, s => U.find pattern s

/-- The text `fmt.Sprintf(pattern3, tableName)`, where `pattern3` is
"(?s)create table if not exists \x60(%s)\x60(.+?)\\) engine". -/
def sprintfPattern3 (tableName : Str) : Str :=
  "(?s)create table if not exists `(".toList ++ tableName ++ ")`(.+?)\\) engine".toList

/-- The expression `regexp.MustCompile(fmt.Sprintf(pattern3, tableName))`.
A table name without metacharacters stands for itself in the pattern.  A table
name with metacharacters is part of the pattern syntax: the library compiles
the text, and `MustCompile` panics when it is not a regular expression. -/
def pattern3 (U : Library) (tableName : Str) : Except Panic Regexp :=
  if tableName.any isMeta then
    if U.compiles (sprintfPattern3 tableName) then .ok (.text (sprintfPattern3 tableName))
    else .error (.regexpCompile (sprintfPattern3 tableName))
  else .ok (.re (Re.cat [Re.lit "create table if not exists `".toList,
    .group 1 (Re.lit tableName), .char '`',
    .group 2 (Re.plus (.cls isAny) false), Re.lit ") engine".toList]))

/-! ## The extractor -/

/-- The index expression `xs[i]` on a slice of strings. -/
def index (xs : List Str) (i : Nat) : Except Panic Str :=
  match xs[i]? with
  | some x => .ok x
  | none => .error (.indexOutOfRange i xs.length)

/-- The loop of `parseTable` over the column matches: each one appends a
column to the table. -/
def columnsLoop (U : Library) : List (List Str) → Table → Except Panic Table
  | [], table => .ok table
  | m :: ms, table =>
    match index m 1 with
    | .error e => .error e
    | .ok m1 =>
      match index m 2 with
      | .error e => .error e
      | .ok m2 =>
        match index m 3 with
        | .error e => .error e
        | .ok m3 =>
          let column := newColumn U m1 m2 (m3 = "unsigned".toList)
          columnsLoop U ms { table with Columns := table.Columns ++ [column] }

/-- The function `parseTable` of `main.go`. -/
def parseTable (U : Library) (m : List Str) : Except Panic Table :=
  match index m 1 with
  | .error e => .error e
  | .ok name =>
    let table := newTable U name
    match index m 2 with
    | .error e => .error e
    | .ok columnsContent =>
      columnsLoop U (findAllStringSubmatch pattern2 columnsContent) table

/-- The loop of `parseSQL` over the table matches. -/
def tablesLoop (U : Library) : List (List Str) → List Table → Except Panic (List Table)
  | [], tables => .ok tables
  | m :: ms, tables =>
    match parseTable U m with
    | .error e => .error e
    | .ok table => tablesLoop U ms (tables ++ [table])

/-- The function `parseSQL` of `main.go`. -/
def parseSQL (U : Library) (sql : Str) (tableName : Str) : Except Panic (List Table) :=
  let s := bytesToLower U sql
  if tableName = [] then
    tablesLoop U (findAllStringSubmatch pattern1 s) []
  else
    match pattern3 U tableName with
    | .error e => .error e
    | .ok p =>
      match parseTable U (p.findStringSubmatch U s) with
      | .error e => .error e
      | .ok table => .ok [table]

/-! ## Notions used to state the properties -/

/-- A string of ASCII runes. -/
def IsASCII (s : Str) : Prop := ∀ r ∈ s, r.toNat ≤ 0x7F

instance (s : Str) : Decidable (IsASCII s) := by unfold IsASCII; infer_instance

/-- The matcher went from the input `s` with captures `c` to the rest `s1`
with captures `c1`: the rest is a suffix of the input and every capture added
is made of runes of the input. -/
def Within (s : Str) (c : Caps) (s1 : Str) (c1 : Caps) : Prop :=
  s1 <:+ s ∧ ∃ d : Caps, c1 = d ++ c ∧ ∀ p ∈ d, ∀ r ∈ p.2, r ∈ s

/-! ### Column declarations -/

/-- A bareword: a non-empty string of runes of the class `\w`. -/
def IsBareword (s : Str) : Prop := s ≠ [] ∧ ∀ r ∈ s, isWord r = true

/-- Whitespace: a non-empty string of runes of the class `\s`. -/
def IsBlank (s : Str) : Prop := s ≠ [] ∧ ∀ r ∈ s, isSpace r = true

instance (s : Str) : Decidable (IsBareword s) := by unfold IsBareword; infer_instance

instance (s : Str) : Decidable (IsBlank s) := by unfold IsBlank; infer_instance

/-- A column declaration: the name between backticks, whitespace, the type
and, optionally, whitespace and a modifier. -/
structure ColumnDecl where
  /-- The name, written between backticks. -/
  name : Str
  /-- The whitespace between the name and the type. -/
  gap : Str
  /-- The type. -/
  sqlType : Str
  /-- The whitespace before the modifier and the modifier, when there is one. -/
  modifier : Option (Str × Str)

/-- The text of the optional part of a declaration. -/
def ColumnDecl.modifierText (d : ColumnDecl) : Str :=
  match d.modifier with
  | none => []
  | some (ws, m) => ws ++ m

/-- The text of a declaration. -/
def ColumnDecl.text (d : ColumnDecl) : Str :=
  '`' :: d.name ++ '`' :: d.gap ++ d.sqlType ++ d.modifierText

/-- The modifier token of a declaration, empty when there is none. -/
def ColumnDecl.token (d : ColumnDecl) : Str :=
  match d.modifier with
  | none => []
  | some (_, m) => m

/-- The modifier token is present and equals `unsigned`. -/
def ColumnDecl.unsigned (d : ColumnDecl) : Bool :=
  match d.modifier with
  | none => false
  | some (_, m) => decide (m = "unsigned".toList)

/-- The name, the type and the modifier are barewords and the parts are
separated by whitespace. -/
def ColumnDecl.WellFormed (d : ColumnDecl) : Prop :=
  IsBareword d.name ∧ IsBlank d.gap ∧ IsBareword d.sqlType ∧
    match d.modifier with
    | none => True
    | some (ws, m) => IsBlank ws ∧ IsBareword m

/-- The match of `pattern2` on a declaration: the text and the three groups. -/
def ColumnDecl.submatch (d : ColumnDecl) : List Str := [d.text, d.name, d.sqlType, d.token]

/-- A text that does not begin with a rune of `\w` or `\s`. -/
def EndsToken (rest : Str) : Prop :=
  ∀ x xs, rest = x :: xs → isWord x = false ∧ isSpace x = false

/-- The captures of `pattern2` on a declaration. -/
def ColumnDecl.caps (d : ColumnDecl) : Caps :=
  match d.modifier with
  | none => [(2, d.sqlType), (1, d.name)]
  | some (_, m) => [(3, m), (2, d.sqlType), (1, d.name)]

/-! ### Table blocks -/

/-- The opening of a table block in the lower-cased source, up to the
backtick before the table name. -/
def blockOpening : Str := "create table if not exists `".toList

/-- The closing of a table block in the lower-cased source. -/
def blockClosing : Str := ") engine".toList

/-- The text starts with a closing parenthesis, optional whitespace and the
word `engine`. -/
def closesAt (t : Str) : Bool :=
  match t with
  | [] => false
  | x :: t' => decide (x = ')') && "engine".toList.isPrefixOf (t'.dropWhile isSpace)

/-- Somewhere in the text, `closesAt` holds. -/
def closesWithin : Str → Bool
  | [] => false
  | x :: xs => closesAt (x :: xs) || closesWithin xs

/-- A table block of the source: the opening phrase with the backtick before
the table name, the table name, the body between the backtick after the name
and the closing, and the closing. -/
structure TableBlock where
  /-- The phrase `create table if not exists` and the backtick, in any letter case. -/
  opening : Str
  /-- The table name, written between backticks. -/
  name : Str
  /-- The text between the table name and the closing. -/
  body : Str
  /-- The text `) engine`, in any letter case. -/
  closing : Str

/-- The text of a table block. -/
def TableBlock.text (b : TableBlock) : Str :=
  b.opening ++ b.name ++ '`' :: b.body ++ b.closing

/-- A well-formed table block: it begins with the opening phrase, in any letter
case; the table name is a bareword; the body is not empty; the block ends with
its closing, in any letter case, and no closing occurs in the body after its
first rune. -/
def TableBlock.WellFormed (U : Library) (b : TableBlock) : Prop :=
  bytesToLower U b.opening = blockOpening ∧ IsBareword b.name ∧ b.body ≠ [] ∧
    closesWithin (bytesToLower U b.body).tail = false ∧ bytesToLower U b.closing = blockClosing

/-- A source text: some leading text, then the table blocks, each followed
by some text. -/
def sourceText (lead : Str) (blocks : List (TableBlock × Str)) : Str :=
  lead ++ (blocks.map fun bg => bg.1.text ++ bg.2).flatten

/-- The lower-cased text has no backtick. -/
def NoBacktick (U : Library) (s : Str) : Prop := '`' ∉ bytesToLower U s

/-- The end of `pattern1`: the closing parenthesis, the optional whitespace
and the word `engine`. -/
def closingRe : Re := Re.cat [.char ')', .star (.cls isSpace) true, Re.lit "engine".toList]

/-- The match of `pattern1` on a well-formed block of the lower-cased source:
the text of the block, the table name and the body. -/
def TableBlock.submatch (U : Library) (b : TableBlock) : List Str :=
  [blockOpening ++ (bytesToLower U b.name ++ ('`' :: (bytesToLower U b.body ++ blockClosing))),
    bytesToLower U b.name, bytesToLower U b.body]

/-- The column that the loop of `parseTable` makes of a match of `pattern2`. -/
def columnOf (U : Library) (m : List Str) : Column :=
  newColumn U (m.getD 1 []) (m.getD 2 []) (decide (m.getD 3 [] = "unsigned".toList))

/-- The table that `parseTable` makes of a table name and a body. -/
def tableOf (U : Library) (name body : Str) : Table :=
  { RawName := name, Name := camelCase U name,
    Columns := (findAllStringSubmatch pattern2 body).map (columnOf U) }

instance (d : ColumnDecl) : Decidable d.WellFormed := by
  unfold ColumnDecl.WellFormed
  cases d.modifier with
  | none => exact inferInstanceAs (Decidable (_ ∧ _ ∧ _ ∧ True))
  | some wm => exact inferInstanceAs (Decidable (_ ∧ _ ∧ _ ∧ _ ∧ _))

instance (U : Library) (s : Str) : Decidable (NoBacktick U s) := by
  unfold NoBacktick; infer_instance

instance (U : Library) (b : TableBlock) : Decidable (b.WellFormed U) := by
  unfold TableBlock.WellFormed; infer_instance

/-! ### Type keywords and casing -/

/-- The case labels of the `switch` of `columnTypeToGo`, as `main.go` writes
them. -/
def dispatchedKeywords : List Str :=
  ["int".toList, "mediumint".toList, "tinyint".toList, "smallint".toList, "bigint".toList,
    "bool".toList, "float".toList, "double".toList, "varchar".toList, "char".toList,
    "text".toList, "tinytext".toList, "mediumtext".toList, "longtext".toList,
    "binary".toList, "varbinary".toList, "blob".toList, "TinyBlob".toList,
    "mediumblob".toList, "longblob".toList, "datetime".toList]

/-- First-letter-up casing, in the words of the specification: the first rune
of the word in title case (upper case, for an ASCII letter), every other rune
unchanged. -/
def firstUp (U : Library) : Str → Str
  | [] => []
  | r :: rs => unicodeToTitle U r :: rs

/-- An ASCII letter or digit. -/
def isAlnum (r : Char) : Bool := isDigit09 r || isLowerAZ r || isUpperAZ r

/-- The flavour a name stands for: `sql`, `json` and `sb` stand for `sqlTable`,
`sqlTableWithJSON` and `sbTable`, any other name for none. -/
def flavourOf (mode : Str) : Option OutputType :=
  if mode = "sql".toList then some .sqlTable
  else if mode = "json".toList then some .sqlTableWithJSON
  else if mode = "sb".toList then some .sbTable
  else none

/-- The flavours named by a list of names, in order, the unknown names
dropped. -/
def flavours (modes : List Str) : List OutputType := modes.filterMap flavourOf

/-- A column is normalised: its name and type are computed from its raw name,
raw type and signedness. -/
def Column.Normalised (U : Library) (c : Column) : Prop :=
  c.Name = camelCase U c.RawName ∧ c.Type' = columnTypeToGo c.RawType c.Unsigned

/-- A table is normalised: its name is computed from its raw name and its
columns are normalised. -/
def Table.Normalised (U : Library) (t : Table) : Prop :=
  t.Name = camelCase U t.RawName ∧ ∀ c ∈ t.Columns, c.Normalised U

/-! ### The lookup of a table by name -/

/-- The opening phrase of a table block begins the text. -/
def opensAt (t : Str) : Bool := blockOpening.isPrefixOf t

/-- Somewhere in the text, `opensAt` holds. -/
def opensWithin : Str → Bool
  | [] => false
  | x :: xs => opensAt (x :: xs) || opensWithin xs

/-- The text of a table block after its opening phrase, with the text that
follows the block. -/
def TableBlock.rest (b : TableBlock) (after : Str) : Str :=
  b.name ++ '`' :: b.body ++ b.closing ++ after

/-- The expression that `pattern3` builds for a table name without
metacharacter. -/
def filterRe (tableName : Str) : Re :=
  Re.cat [Re.lit "create table if not exists `".toList,
    .group 1 (Re.lit tableName), .char '`',
    .group 2 (Re.plus (.cls isAny) false), Re.lit ") engine".toList]

/-- A library that leaves every rune above U+007F unchanged, compiles the one
pattern text `pattern` and finds the match `found` with it. -/
def Library.withPattern (pattern : Str) (found : List Str) : Library :=
  ⟨id, id, id, fun p => decide (p = pattern), fun p _ => if p = pattern then found else []⟩

/-! ## ASCII text never consults the case tables -/

theorem unicodeToLower_ascii (U V : Library) {r : Char} (h : r.toNat ≤ 0x7F) :
    unicodeToLower U r = unicodeToLower V r := by
  simp [unicodeToLower, h]

theorem unicodeToUpper_ascii (U V : Library) {r : Char} (h : r.toNat ≤ 0x7F) :
    unicodeToUpper U r = unicodeToUpper V r := by
  simp [unicodeToUpper, h]

theorem unicodeToTitle_ascii (U V : Library) {r : Char} (h : r.toNat ≤ 0x7F) :
    unicodeToTitle U r = unicodeToTitle V r := by
  simp [unicodeToTitle, h]

theorem bytesToLower_ascii (U V : Library) {s : Str} (h : IsASCII s) :
    bytesToLower U s = bytesToLower V s := by
  unfold bytesToLower
  exact List.map_congr_left fun r hr => unicodeToLower_ascii U V (h r hr)

theorem stringsToUpper_ascii (U V : Library) {s : Str} (h : IsASCII s) :
    stringsToUpper U s = stringsToUpper V s := by
  unfold stringsToUpper
  exact List.map_congr_left fun r hr => unicodeToUpper_ascii U V (h r hr)

theorem titleFrom_ascii (U V : Library) {s : Str} (h : IsASCII s) (prev : Char) :
    titleFrom U prev s = titleFrom V prev s := by
  induction s generalizing prev with
  | nil => rfl
  | cons r rs ih =>
    have hr : r.toNat ≤ 0x7F := h r (List.mem_cons_self _ _)
    have hrs : IsASCII rs := fun x hx => h x (List.mem_cons_of_mem _ hx)
    simp only [titleFrom, unicodeToTitle_ascii U V hr, ih hrs]

theorem foldl_mapSet_ascii (U V : Library) (ws : List Str) (h : ∀ w ∈ ws, IsASCII w)
    (m : List (Str × Str)) :
    ws.foldl (fun m k => mapSet m k (stringsToUpper U k)) m
      = ws.foldl (fun m k => mapSet m k (stringsToUpper V k)) m := by
  induction ws generalizing m with
  | nil => rfl
  | cons w ws ih =>
    simp only [List.foldl_cons]
    rw [stringsToUpper_ascii U V (h w (List.mem_cons_self _ _))]
    exact ih (fun x hx => h x (List.mem_cons_of_mem _ hx)) _

/-- The override dictionary is the same whatever the case tables. -/
theorem transformer_tables (U V : Library) : transformer U = transformer V :=
  foldl_mapSet_ascii U V upperWords (by decide) transformerLiteral

theorem title_ascii (U V : Library) {s : Str} (h : IsASCII s) : title U s = title V s := by
  unfold title stringsTitle
  rw [transformer_tables U V, titleFrom_ascii U V h]

theorem mem_of_mem_stringsSplit (sep : Char) (s : Str) :
    ∀ p ∈ stringsSplit s sep, ∀ r ∈ p, r ∈ s := by
  induction s with
  | nil => intro p hp r hr; simp [stringsSplit] at hp; subst hp; exact hr
  | cons x xs ih =>
    intro p hp r hr
    unfold stringsSplit at hp
    split at hp
    · rcases List.mem_cons.1 hp with h | h
      · subst h; simp at hr
      · exact List.mem_cons_of_mem _ (ih p h r hr)
    · split at hp
      · simp at hp; subst hp; simp at hr; subst hr; exact List.mem_cons_self _ _
      · rename_i q qs hq
        rcases List.mem_cons.1 hp with h | h
        · subst h
          rcases List.mem_cons.1 hr with h' | h'
          · subst h'; exact List.mem_cons_self _ _
          · exact List.mem_cons_of_mem _ (ih q (by rw [hq]; exact List.mem_cons_self _ _) r h')
        · exact List.mem_cons_of_mem _ (ih p (by rw [hq]; exact List.mem_cons_of_mem _ h) r hr)

theorem camelCase_ascii (U V : Library) {s : Str} (h : IsASCII s) :
    camelCase U s = camelCase V s := by
  unfold camelCase
  have hmap : (stringsSplit s '_').map (title U) = (stringsSplit s '_').map (title V) :=
    List.map_congr_left fun p hp =>
      title_ascii U V fun r hr => h r (mem_of_mem_stringsSplit '_' s p hp r hr)
  simp only [title_ascii U V h, hmap]

/-! ## What a match is made of -/

theorem orElse_eq_some {a b : Option (Caps × Str)} {r : Caps × Str}
    (h : orElse a b = some r) : a = some r ∨ b = some r := by
  cases a with
  | none => exact Or.inr h
  | some x => exact Or.inl h

theorem Within.refl (s : Str) (c : Caps) : Within s c s c :=
  ⟨List.suffix_refl s, [], rfl, by simp⟩

theorem Within.trans {s s1 s2 : Str} {c c1 c2 : Caps}
    (h1 : Within s c s1 c1) (h2 : Within s1 c1 s2 c2) : Within s c s2 c2 := by
  obtain ⟨hs1, d1, rfl, hd1⟩ := h1
  obtain ⟨hs2, d2, rfl, hd2⟩ := h2
  refine ⟨hs2.trans hs1, d2 ++ d1, by simp, ?_⟩
  intro p hp r hr
  rcases List.mem_append.1 hp with h | h
  · exact hs1.mem (hd2 p h r hr)
  · exact hd1 p h r hr

theorem Within.tail (x : Char) (xs : Str) (c : Caps) : Within (x :: xs) c xs c :=
  ⟨List.suffix_cons x xs, [], rfl, by simp⟩

theorem starLoop_within {step : Cont → Cont} (g : Bool) (k : Cont)
    (hstep : ∀ (k' : Cont) (s : Str) (c : Caps) (r : Caps × Str), step k' s c = some r →
      ∃ s1 c1, Within s c s1 c1 ∧ k' s1 c1 = some r) :
    ∀ (n : Nat) (s : Str) (c : Caps) (r : Caps × Str), starLoop step g k n s c = some r →
      ∃ s1 c1, Within s c s1 c1 ∧ k s1 c1 = some r := by
  intro n
  induction n with
  | zero => intro s c r h; exact ⟨s, c, Within.refl s c, h⟩
  | succ n ih =>
    intro s c r h
    have hcases : step (fun s' c' =>
          if s'.length < s.length then starLoop step g k n s' c' else none) s c = some r
        ∨ k s c = some r := by
      cases g
      · simp only [starLoop, Bool.false_eq_true, if_false] at h
        exact (orElse_eq_some h).symm
      · simp only [starLoop, if_true] at h
        exact orElse_eq_some h
    rcases hcases with h | h
    · obtain ⟨s1, c1, hw, hk⟩ := hstep _ s c r h
      by_cases hlt : s1.length < s.length
      · simp only [hlt, if_true] at hk
        obtain ⟨s2, c2, hw2, hk2⟩ := ih s1 c1 r hk
        exact ⟨s2, c2, hw.trans hw2, hk2⟩
      · simp [hlt] at hk
    · exact ⟨s, c, Within.refl s c, h⟩

/-- Whatever the matcher hands to its continuation is cut from the input. -/
theorem matchRe_within (re : Re) : ∀ (k : Cont) (s : Str) (c : Caps) (r : Caps × Str),
    matchRe re k s c = some r → ∃ s1 c1, Within s c s1 c1 ∧ k s1 c1 = some r := by
  induction re with
  | eps => intro k s c r h; exact ⟨s, c, Within.refl s c, h⟩
  | char ch =>
    intro k s c r h
    cases s with
    | nil => simp [matchRe] at h
    | cons x xs =>
      by_cases hx : x = ch
      · simp only [matchRe, hx, if_true] at h
        exact ⟨xs, c, Within.tail x xs c, h⟩
      · simp [matchRe, hx] at h
  | cls p =>
    intro k s c r h
    cases s with
    | nil => simp [matchRe] at h
    | cons x xs =>
      by_cases hx : p x = true
      · simp only [matchRe, hx, if_true] at h
        exact ⟨xs, c, Within.tail x xs c, h⟩
      · simp [matchRe, hx] at h
  | seq a b iha ihb =>
    intro k s c r h
    obtain ⟨s1, c1, hw1, h1⟩ := iha _ s c r h
    obtain ⟨s2, c2, hw2, h2⟩ := ihb _ s1 c1 r h1
    exact ⟨s2, c2, hw1.trans hw2, h2⟩
  | star a g iha =>
    intro k s c r h
    exact starLoop_within g k iha s.length s c r h
  | opt a g iha =>
    intro k s c r h
    have hcases : matchRe a k s c = some r ∨ k s c = some r := by
      cases g
      · simp only [matchRe, Bool.false_eq_true, if_false] at h
        exact (orElse_eq_some h).symm
      · simp only [matchRe, if_true] at h
        exact orElse_eq_some h
    rcases hcases with h | h
    · exact iha k s c r h
    · exact ⟨s, c, Within.refl s c, h⟩
  | group i a iha =>
    intro k s c r h
    obtain ⟨s1, c1, ⟨hs1, d, rfl, hd⟩, h1⟩ := iha _ s c r h
    refine ⟨s1, (i, s.take (s.length - s1.length)) :: (d ++ c), ⟨hs1, (i, _) :: d, rfl, ?_⟩, h1⟩
    intro p hp x hx
    rcases List.mem_cons.1 hp with h | h
    · subst h; exact List.mem_of_mem_take hx
    · exact hd p h x hx

theorem capture_mem {c : Caps} {s : Str} (h : ∀ p ∈ c, ∀ r ∈ p.2, r ∈ s) (i : Nat) :
    ∀ r ∈ capture c i, r ∈ s := by
  induction c with
  | nil => intro r hr; simp [capture] at hr
  | cons p rest ih =>
    obtain ⟨j, t⟩ := p
    intro r hr
    unfold capture at hr
    split at hr
    · exact h (j, t) (List.mem_cons_self _ _) r hr
    · exact ih (fun q hq => h q (List.mem_cons_of_mem _ hq)) r hr

/-- Every string of a match is made of runes of the text it was found in. -/
theorem matchAt_mem {re : Re} {s : Str} {m : List Str} {n : Nat}
    (h : matchAt re s = some (m, n)) : ∀ x ∈ m, ∀ r ∈ x, r ∈ s := by
  unfold matchAt at h
  split at h
  · simp at h
  · rename_i c s' hm
    obtain ⟨s1, c1, ⟨_, d, hc, hd⟩, hk⟩ := matchRe_within re _ s [] _ hm
    simp only [Option.some.injEq, Prod.mk.injEq] at hk h
    obtain ⟨rfl, rfl⟩ := hk
    obtain ⟨rfl, -⟩ := h
    subst hc
    intro x hx r hr
    rcases List.mem_cons.1 hx with h | h
    · subst h; exact List.mem_of_mem_take hr
    · obtain ⟨i, -, rfl⟩ := List.mem_map.1 h
      exact capture_mem (by simpa using hd) _ r hr

theorem findAllFrom_mem (re : Re) : ∀ (s : Str) (skip : Nat) (adj : Bool),
    ∀ m ∈ findAllFrom re s skip adj, ∀ x ∈ m, ∀ r ∈ x, r ∈ s := by
  intro s
  induction s with
  | nil =>
    intro skip adj m hm
    unfold findAllFrom at hm
    split at hm
    · rename_i m' n' hmatch
      split at hm
      · simp at hm
      · simp only [List.mem_singleton] at hm
        subst hm; exact matchAt_mem hmatch
    · simp at hm
  | cons y ys ih =>
    intro skip adj m hm x hx r hr
    cases skip with
    | succ k =>
      simp only [findAllFrom] at hm
      exact List.mem_cons_of_mem _ (ih k true m hm x hx r hr)
    | zero =>
      simp only [findAllFrom] at hm
      split at hm
      · exact List.mem_cons_of_mem _ (ih 0 false m hm x hx r hr)
      · rename_i m' hmatch
        split at hm
        · exact List.mem_cons_of_mem _ (ih 0 false m hm x hx r hr)
        · rcases List.mem_cons.1 hm with h | h
          · subst h; exact matchAt_mem hmatch x hx r hr
          · exact List.mem_cons_of_mem _ (ih 0 false m h x hx r hr)
      · rename_i m' n' hmatch
        rcases List.mem_cons.1 hm with h | h
        · subst h; exact matchAt_mem hmatch x hx r hr
        · exact List.mem_cons_of_mem _ (ih n' true m h x hx r hr)

theorem findStringSubmatch_mem (re : Re) : ∀ (s : Str),
    ∀ x ∈ findStringSubmatch re s, ∀ r ∈ x, r ∈ s := by
  intro s
  induction s with
  | nil =>
    intro x hx
    unfold findStringSubmatch at hx
    split at hx
    · rename_i m' n' hmatch; exact matchAt_mem hmatch x hx
    · simp at hx
  | cons y ys ih =>
    intro x hx r hr
    unfold findStringSubmatch at hx
    split at hx
    · rename_i m' n' hmatch; exact matchAt_mem hmatch x hx r hr
    · exact List.mem_cons_of_mem _ (ih x hx r hr)

/-! ## ASCII sources: the result does not depend on the library -/

theorem index_mem {xs : List Str} {i : Nat} {x : Str} (h : index xs i = .ok x) : x ∈ xs := by
  unfold index at h
  split at h
  · rename_i y hy
    simp only [Except.ok.injEq] at h
    subst h; exact List.getElem?_mem hy
  · simp at h

theorem newColumn_ascii (U V : Library) {rawName : Str} (h : IsASCII rawName)
    (rawType : Str) (unsigned : Bool) :
    newColumn U rawName rawType unsigned = newColumn V rawName rawType unsigned := by
  simp only [newColumn, camelCase_ascii U V h]

theorem columnsLoop_ascii (U V : Library) :
    ∀ (ms : List (List Str)) (table : Table), (∀ m ∈ ms, ∀ x ∈ m, IsASCII x) →
      columnsLoop U ms table = columnsLoop V ms table := by
  intro ms
  induction ms with
  | nil => intro table _; rfl
  | cons m ms ih =>
    intro table h
    have hm := h m (List.mem_cons_self _ _)
    have hms : ∀ m' ∈ ms, ∀ x ∈ m', IsASCII x := fun m' hm' => h m' (List.mem_cons_of_mem _ hm')
    unfold columnsLoop
    cases h1 : index m 1 with
    | error e => rfl
    | ok m1 =>
      cases h2 : index m 2 with
      | error e => rfl
      | ok m2 =>
        cases h3 : index m 3 with
        | error e => rfl
        | ok m3 =>
          simp only [newColumn_ascii U V (hm m1 (index_mem h1))]
          exact ih _ hms

theorem parseTable_ascii (U V : Library) {m : List Str} (h : ∀ x ∈ m, IsASCII x) :
    parseTable U m = parseTable V m := by
  unfold parseTable
  cases h1 : index m 1 with
  | error e => rfl
  | ok name =>
    cases h2 : index m 2 with
    | error e => rfl
    | ok content =>
      have hname : newTable U name = newTable V name := by
        simp only [newTable, camelCase_ascii U V (h name (index_mem h1))]
      simp only [hname]
      apply columnsLoop_ascii
      intro m' hm' x hx r hr
      exact h content (index_mem h2) r
        (findAllFrom_mem pattern2 content 0 false m' hm' x hx r hr)

theorem tablesLoop_ascii (U V : Library) :
    ∀ (ms : List (List Str)) (tables : List Table), (∀ m ∈ ms, ∀ x ∈ m, IsASCII x) →
      tablesLoop U ms tables = tablesLoop V ms tables := by
  intro ms
  induction ms with
  | nil => intro tables _; rfl
  | cons m ms ih =>
    intro tables h
    unfold tablesLoop
    rw [parseTable_ascii U V (h m (List.mem_cons_self _ _))]
    cases parseTable V m with
    | error e => rfl
    | ok table => exact ih _ fun m' hm' => h m' (List.mem_cons_of_mem _ hm')

/-- A table name without metacharacters is compiled without the library. -/
theorem pattern3_plain (U : Library) {tableName : Str} (h : tableName.any isMeta = false) :
    pattern3 U tableName
      = .ok (.re (Re.cat [Re.lit "create table if not exists `".toList,
          .group 1 (Re.lit tableName), .char '`',
          .group 2 (Re.plus (.cls isAny) false), Re.lit ") engine".toList])) := by
  simp only [pattern3, h, Bool.false_eq_true, if_false]

/-- On an ASCII source whose lower-cased text is ASCII, and for a table name
without metacharacters, `parseSQL` returns the same result whatever the
library. -/
theorem parseSQL_ascii (U V : Library) {sql : Str} (tableName : Str)
    (h : IsASCII sql) (hl : IsASCII (bytesToLower V sql))
    (hplain : tableName.any isMeta = false) :
    parseSQL U sql tableName = parseSQL V sql tableName := by
  unfold parseSQL
  rw [bytesToLower_ascii U V h]
  by_cases ht : tableName = []
  · simp only [ht, if_true]
    apply tablesLoop_ascii
    intro m hm x hx r hr
    exact hl r (findAllFrom_mem pattern1 _ 0 false m hm x hx r hr)
  · simp only [ht, if_false, pattern3_plain U hplain, pattern3_plain V hplain,
      Regexp.findStringSubmatch]
    rw [parseTable_ascii U V]
    intro x hx r hr
    exact hl r (findStringSubmatch_mem _ _ x hx r hr)

/-! ## Splitting and joining -/

theorem stringsSplit_ne_nil (s : Str) (sep : Char) : stringsSplit s sep ≠ [] := by
  cases s with
  | nil => simp [stringsSplit]
  | cons x xs =>
    unfold stringsSplit
    split
    · simp
    · split <;> simp

theorem stringsSplit_of_not_mem (sep : Char) (s : Str) (h : sep ∉ s) :
    stringsSplit s sep = [s] := by
  induction s with
  | nil => rfl
  | cons x xs ih =>
    have hx : ¬ x = sep := fun e => h (e ▸ List.mem_cons_self _ _)
    have hxs : sep ∉ xs := fun m => h (List.mem_cons_of_mem _ m)
    unfold stringsSplit
    rw [if_neg hx, ih hxs]

theorem stringsSplit_length_one (sep : Char) (s : Str)
    (h : (stringsSplit s sep).length = 1) : stringsSplit s sep = [s] := by
  induction s with
  | nil => rfl
  | cons x xs ih =>
    unfold stringsSplit at h ⊢
    by_cases hx : x = sep
    · rw [if_pos hx] at h
      have := stringsSplit_ne_nil xs sep
      cases hsp : stringsSplit xs sep with
      | nil => exact absurd hsp this
      | cons q qs => rw [hsp] at h; simp at h
    · rw [if_neg hx] at h ⊢
      cases hsp : stringsSplit xs sep with
      | nil => exact absurd hsp (stringsSplit_ne_nil xs sep)
      | cons q qs =>
        rw [hsp] at h ih
        simp only [List.length_cons, Nat.add_left_eq_self, List.length_eq_zero] at h
        subst h
        have := ih rfl
        simp only [List.cons.injEq, and_true] at this
        simp [this]

theorem stringsJoin_nil_sep (parts : List Str) : stringsJoin parts [] = parts.flatten := by
  induction parts with
  | nil => rfl
  | cons a rest ih =>
    cases rest with
    | nil => simp [stringsJoin]
    | cons b rest => simp only [stringsJoin, List.append_nil, ih, List.flatten_cons]

theorem title_nil (U : Library) : title U [] = [] := by
  rw [title_ascii U .ascii (by decide)]; decide

theorem camelCase_eq_flatten (U : Library) (s : Str) :
    camelCase U s = ((stringsSplit s '_').map (title U)).flatten := by
  unfold camelCase
  by_cases hs : s = []
  · subst hs; simp [stringsSplit, title_nil]
  · rw [if_neg hs]
    by_cases hl : (stringsSplit s '_').length = 1
    · simp only [hl, if_true, stringsSplit_length_one '_' s hl]
      simp
    · simp only [hl, if_false, stringsJoin_nil_sep]

/-! ## Names are not empty -/

theorem exists_mem_stringsSplit (sep : Char) (s : Str) (r : Char) (hr : r ∈ s) (hne : r ≠ sep) :
    ∃ p ∈ stringsSplit s sep, r ∈ p := by
  induction s with
  | nil => simp at hr
  | cons x xs ih =>
    unfold stringsSplit
    by_cases hx : x = sep
    · rw [if_pos hx]
      rcases List.mem_cons.1 hr with h | h
      · exact absurd (h.trans hx) hne
      · obtain ⟨p, hp, hrp⟩ := ih h
        exact ⟨p, List.mem_cons_of_mem _ hp, hrp⟩
    · rw [if_neg hx]
      cases hsp : stringsSplit xs sep with
      | nil => exact absurd hsp (stringsSplit_ne_nil xs sep)
      | cons q qs =>
        rcases List.mem_cons.1 hr with h | h
        · exact ⟨x :: q, List.mem_cons_self _ _, h ▸ List.mem_cons_self _ _⟩
        · obtain ⟨p, hp, hrp⟩ := ih h
          rw [hsp] at hp
          rcases List.mem_cons.1 hp with h' | h'
          · subst h'
            exact ⟨x :: p, List.mem_cons_self _ _, List.mem_cons_of_mem _ hrp⟩
          · exact ⟨p, List.mem_cons_of_mem _ h', hrp⟩

theorem titleFrom_length (U : Library) (s : Str) (prev : Char) :
    (titleFrom U prev s).length = s.length := by
  induction s generalizing prev with
  | nil => rfl
  | cons r rs ih => simp [titleFrom, ih]

theorem mapGet_mem {m : List (Str × Str)} {k v : Str} (h : mapGet m k = some v) :
    ∃ k', (k', v) ∈ m := by
  induction m with
  | nil => simp [mapGet] at h
  | cons p rest ih =>
    obtain ⟨k', v'⟩ := p
    unfold mapGet at h
    split at h
    · simp only [Option.some.injEq] at h
      subst h; exact ⟨k', List.mem_cons_self _ _⟩
    · obtain ⟨k'', hk⟩ := ih h
      exact ⟨k'', List.mem_cons_of_mem _ hk⟩

theorem transformer_values_ne_nil (U : Library) {k v : Str}
    (h : mapGet (transformer U) k = some v) : v ≠ [] := by
  rw [transformer_tables U .ascii] at h
  obtain ⟨k', hk⟩ := mapGet_mem h
  have hall : ∀ p ∈ transformer .ascii, p.2 ≠ [] := by decide
  exact hall (k', v) hk

theorem title_ne_nil (U : Library) {s : Str} (h : s ≠ []) : title U s ≠ [] := by
  unfold title
  split
  · rename_i t ht; exact transformer_values_ne_nil U ht
  · intro e
    have := titleFrom_length U s ' '
    unfold stringsTitle at e
    rw [e] at this
    exact h (List.length_eq_zero.1 this.symm)

theorem camelCase_ne_nil (U : Library) {s : Str} (h : ∃ r ∈ s, r ≠ '_') :
    camelCase U s ≠ [] := by
  obtain ⟨r, hr, hne⟩ := h
  obtain ⟨p, hp, hrp⟩ := exists_mem_stringsSplit '_' s r hr hne
  rw [camelCase_eq_flatten]
  intro e
  have hall := List.flatten_eq_nil_iff.1 e (title U p) (List.mem_map_of_mem _ hp)
  exact title_ne_nil U (List.ne_nil_of_mem hrp) hall

/-! ## How the matcher runs on the operators of the patterns -/

theorem matchRe_eps (k : Cont) (s : Str) (c : Caps) : matchRe .eps k s c = k s c := rfl

theorem matchRe_char_cons (a : Char) (k : Cont) (x : Char) (xs : Str) (c : Caps) :
    matchRe (.char a) k (x :: xs) c = if x = a then k xs c else none := rfl

theorem matchRe_char_nil (a : Char) (k : Cont) (c : Caps) : matchRe (.char a) k [] c = none := rfl

theorem matchRe_cls_cons (p : Char → Bool) (k : Cont) (x : Char) (xs : Str) (c : Caps) :
    matchRe (.cls p) k (x :: xs) c = if p x = true then k xs c else none := rfl

theorem matchRe_cls_nil (p : Char → Bool) (k : Cont) (c : Caps) :
    matchRe (.cls p) k [] c = none := rfl

theorem matchRe_seq (a b : Re) (k : Cont) (s : Str) (c : Caps) :
    matchRe (.seq a b) k s c = matchRe a (matchRe b k) s c := rfl

theorem matchRe_star (a : Re) (g : Bool) (k : Cont) (s : Str) (c : Caps) :
    matchRe (.star a g) k s c = starLoop (matchRe a) g k s.length s c := rfl

theorem matchRe_opt_greedy (a : Re) (k : Cont) (s : Str) (c : Caps) :
    matchRe (.opt a true) k s c = orElse (matchRe a k s c) (k s c) := rfl

theorem matchRe_group (i : Nat) (a : Re) (k : Cont) (s : Str) (c : Caps) :
    matchRe (.group i a) k s c
      = matchRe a (fun s' c' => k s' ((i, s.take (s.length - s'.length)) :: c')) s c := rfl

theorem matchRe_plus (a : Re) (g : Bool) (k : Cont) (s : Str) (c : Caps) :
    matchRe (Re.plus a g) k s c = matchRe a (matchRe (.star a g) k) s c := rfl

theorem matchRe_cat_nil (k : Cont) (s : Str) (c : Caps) : matchRe (Re.cat []) k s c = k s c := rfl

theorem matchRe_cat_cons (r : Re) (rs : List Re) (k : Cont) (s : Str) (c : Caps) :
    matchRe (Re.cat (r :: rs)) k s c = matchRe r (matchRe (Re.cat rs) k) s c := rfl

theorem starLoop_zero (step : Cont → Cont) (g : Bool) (k : Cont) (s : Str) (c : Caps) :
    starLoop step g k 0 s c = k s c := rfl

theorem starLoop_succ_greedy (step : Cont → Cont) (k : Cont) (n : Nat) (s : Str) (c : Caps) :
    starLoop step true k (n + 1) s c
      = orElse (step (fun s' c' =>
          if s'.length < s.length then starLoop step true k n s' c' else none) s c) (k s c) := rfl

theorem starLoop_succ_lazy (step : Cont → Cont) (k : Cont) (n : Nat) (s : Str) (c : Caps) :
    starLoop step false k (n + 1) s c
      = orElse (k s c) (step (fun s' c' =>
          if s'.length < s.length then starLoop step false k n s' c' else none) s c) := rfl

theorem orElse_none_left (b : Option (Caps × Str)) : orElse none b = b := rfl

theorem orElse_none_right (a : Option (Caps × Str)) : orElse a none = a := by
  cases a <;> rfl

theorem orElse_of_isSome {a : Option (Caps × Str)} (b : Option (Caps × Str))
    (h : a.isSome = true) : orElse a b = a := by
  cases a with
  | none => simp at h
  | some r => rfl

theorem matchRe_lit_append (h : Str) (k : Cont) (s : Str) (c : Caps) :
    matchRe (Re.lit h) k (h ++ s) c = k s c := by
  induction h with
  | nil => rfl
  | cons a h ih =>
    show matchRe (.char a) (matchRe (Re.lit h) k) (a :: (h ++ s)) c = k s c
    rw [matchRe_char_cons, if_pos rfl]
    exact ih

theorem matchRe_lit_mismatch (h : Str) (k : Cont) (s : Str) (c : Caps)
    (hn : ¬ h <+: s) : matchRe (Re.lit h) k s c = none := by
  induction h generalizing s with
  | nil => exact absurd (List.nil_prefix) hn
  | cons a h ih =>
    show matchRe (.char a) (matchRe (Re.lit h) k) s c = none
    cases s with
    | nil => rfl
    | cons x xs =>
      rw [matchRe_char_cons]
      by_cases hx : x = a
      · subst hx
        rw [if_pos rfl]
        exact ih xs fun hp => hn ((List.prefix_cons_inj x).2 hp)
      · rw [if_neg hx]

theorem starLoop_greedy_cls (p : Char → Bool) (k : Cont) (c : Caps) :
    ∀ (s : Str) (n : Nat), s.length ≤ n →
      ((k (s.dropWhile p) c).isSome = true ∨ ∀ x xs, p x = true → k (x :: xs) c = none) →
      starLoop (matchRe (.cls p)) true k n s c = k (s.dropWhile p) c := by
  intro s
  induction s with
  | nil =>
    intro n _ _
    cases n with
    | zero => rfl
    | succ n => rw [starLoop_succ_greedy, matchRe_cls_nil, orElse_none_left]; rfl
  | cons x xs ih =>
    intro n hn hk
    cases n with
    | zero => simp at hn
    | succ n =>
      have hn' : xs.length ≤ n := by simpa using hn
      rw [starLoop_succ_greedy, matchRe_cls_cons]
      by_cases hx : p x = true
      · have hdrop : (x :: xs).dropWhile p = xs.dropWhile p := by simp [hx]
        rw [hdrop] at hk ⊢
        rw [if_pos hx, if_pos (by simp), ih n hn' hk]
        rcases hk with hk | hk
        · exact orElse_of_isSome _ hk
        · rw [hk x xs hx, orElse_none_right]
      · have hdrop : (x :: xs).dropWhile p = x :: xs := by simp [hx]
        rw [hdrop, if_neg hx, orElse_none_left]

theorem dropWhile_eq_self_of_head (p : Char → Bool) (r : Str)
    (hr : ∀ x xs, r = x :: xs → p x = false) : r.dropWhile p = r := by
  cases r with
  | nil => rfl
  | cons x xs => simp [hr x xs rfl]

/-- A greedy `p*` takes the longest run there is, when what follows accepts
the rest or cannot start with a rune of the class. -/
theorem matchRe_star_greedy_cls (p : Char → Bool) (k : Cont) (w r : Str) (c : Caps)
    (hall : ∀ x ∈ w, p x = true) (hr : ∀ x xs, r = x :: xs → p x = false)
    (hk : (k r c).isSome = true ∨ ∀ x xs, p x = true → k (x :: xs) c = none) :
    matchRe (.star (.cls p) true) k (w ++ r) c = k r c := by
  have hdrop : (w ++ r).dropWhile p = r := by
    rw [List.dropWhile_append_of_pos hall, dropWhile_eq_self_of_head p r hr]
  rw [matchRe_star, starLoop_greedy_cls p k c (w ++ r) _ (Nat.le_refl _) (by rw [hdrop]; exact hk),
    hdrop]

/-- A greedy `p+` takes the longest run there is, under the same condition. -/
theorem matchRe_plus_greedy_cls (p : Char → Bool) (k : Cont) (w r : Str) (c : Caps)
    (hw : w ≠ []) (hall : ∀ x ∈ w, p x = true) (hr : ∀ x xs, r = x :: xs → p x = false)
    (hk : (k r c).isSome = true ∨ ∀ x xs, p x = true → k (x :: xs) c = none) :
    matchRe (Re.plus (.cls p) true) k (w ++ r) c = k r c := by
  cases w with
  | nil => exact absurd rfl hw
  | cons x w' =>
    have hx : p x = true := hall x (List.mem_cons_self _ _)
    have hw' : ∀ y ∈ w', p y = true := fun y hy => hall y (List.mem_cons_of_mem _ hy)
    rw [matchRe_plus, List.cons_append, matchRe_cls_cons, if_pos hx]
    exact matchRe_star_greedy_cls p k w' r c hw' hr hk

theorem matchRe_plus_of_head (p : Char → Bool) (g : Bool) (k : Cont) (r : Str) (c : Caps)
    (hr : ∀ x xs, r = x :: xs → p x = false) :
    matchRe (Re.plus (.cls p) g) k r c = none := by
  cases r with
  | nil => rfl
  | cons x xs =>
    rw [matchRe_plus, matchRe_cls_cons, if_neg (by simp [hr x xs rfl])]

/-- A greedy `(p+)` group captures the longest run there is. -/
theorem matchRe_group_plus_greedy (i : Nat) (p : Char → Bool) (k : Cont) (w r : Str) (c : Caps)
    (hw : w ≠ []) (hall : ∀ x ∈ w, p x = true) (hr : ∀ x xs, r = x :: xs → p x = false)
    (hk : (k r ((i, w) :: c)).isSome = true ∨ ∀ x xs c', p x = true → k (x :: xs) c' = none) :
    matchRe (.group i (Re.plus (.cls p) true)) k (w ++ r) c = k r ((i, w) :: c) := by
  have htake : (w ++ r).take ((w ++ r).length - r.length) = w := by
    have : (w ++ r).length - r.length = w.length := by simp
    rw [this]; exact List.take_left' rfl
  rw [matchRe_group, matchRe_plus_greedy_cls p _ w r c hw hall hr]
  · rw [htake]
  · rw [htake]
    rcases hk with hk | hk
    · exact Or.inl hk
    · exact Or.inr fun y ys hy => hk y ys _ hy

theorem matchRe_group_plus_of_head (i : Nat) (p : Char → Bool) (g : Bool) (k : Cont) (r : Str)
    (c : Caps) (hr : ∀ x xs, r = x :: xs → p x = false) :
    matchRe (.group i (Re.plus (.cls p) g)) k r c = none := by
  rw [matchRe_group, matchRe_plus_of_head p g _ r c hr]

/-- A lazy `.*?` stops at the first place where what follows succeeds. -/
theorem starLoop_lazy_any (k : Cont) (c : Caps) (v : Str) (hv : (k v c).isSome = true) :
    ∀ (u : Str) (n : Nat), (u ++ v).length ≤ n →
      (∀ u1 u2, u = u1 ++ u2 → u2 ≠ [] → k (u2 ++ v) c = none) →
      starLoop (matchRe (.cls isAny)) false k n (u ++ v) c = k v c := by
  intro u
  induction u with
  | nil =>
    intro n _ _
    cases n with
    | zero => rfl
    | succ n => rw [starLoop_succ_lazy]; exact orElse_of_isSome _ hv
  | cons x u ih =>
    intro n hn hfail
    cases n with
    | zero => simp at hn
    | succ n =>
      have hn' : (u ++ v).length ≤ n := by simpa using hn
      rw [starLoop_succ_lazy, hfail [] (x :: u) rfl (by simp), orElse_none_left,
        List.cons_append, matchRe_cls_cons, if_pos (show isAny x = true from rfl),
        if_pos (by simp)]
      exact ih n hn' fun u1 u2 hu hu2 => hfail (x :: u1) u2 (by rw [hu]; rfl) hu2

/-! ## The column pattern on a declaration -/

theorem isWord_of_isSpace {x : Char} (h : isSpace x = true) : isWord x = false := by
  simp only [isSpace, Bool.or_eq_true, decide_eq_true_eq] at h
  rcases h with (((h | h) | h) | h) | h <;> subst h <;> decide

theorem isSpace_of_isWord {x : Char} (h : isWord x = true) : isSpace x = false := by
  cases hs : isSpace x with
  | false => rfl
  | true => rw [isWord_of_isSpace hs] at h; cases h

theorem ne_backtick_of_isWord {x : Char} (h : isWord x = true) : x ≠ '`' := by
  intro e; subst e; revert h; decide

theorem head_of_bareword {w : Str} (hw : IsBareword w) (r : Str) :
    ∀ x xs, w ++ r = x :: xs → isWord x = true := by
  intro x xs h
  cases w with
  | nil => exact absurd rfl hw.1
  | cons y ys =>
    simp only [List.cons_append, List.cons.injEq] at h
    exact h.1 ▸ hw.2 y (List.mem_cons_self _ _)

theorem head_of_blank {w : Str} (hw : IsBlank w) (r : Str) :
    ∀ x xs, w ++ r = x :: xs → isSpace x = true := by
  intro x xs h
  cases w with
  | nil => exact absurd rfl hw.1
  | cons y ys =>
    simp only [List.cons_append, List.cons.injEq] at h
    exact h.1 ▸ hw.2 y (List.mem_cons_self _ _)

/-- The optional modifier group, on a bareword. -/
theorem matchRe_modifier_some (m rest : Str) (c : Caps) (hm : IsBareword m)
    (hrest : ∀ x xs, rest = x :: xs → isWord x = false) :
    matchRe (Re.cat [.opt (.group 3 (Re.plus (.cls isWord) true)) true]) accept (m ++ rest) c
      = some ((3, m) :: c, rest) := by
  rw [matchRe_cat_cons, matchRe_opt_greedy,
    matchRe_group_plus_greedy 3 isWord (matchRe (Re.cat []) accept) m rest c hm.1 hm.2 hrest
      (Or.inl rfl)]
  rfl

/-- The optional modifier group, where no bareword starts. -/
theorem matchRe_modifier_none (rest : Str) (c : Caps)
    (hrest : ∀ x xs, rest = x :: xs → isWord x = false) :
    matchRe (Re.cat [.opt (.group 3 (Re.plus (.cls isWord) true)) true]) accept rest c
      = some (c, rest) := by
  rw [matchRe_cat_cons, matchRe_opt_greedy, matchRe_group_plus_of_head 3 isWord true _ rest c hrest]
  rfl

theorem matchRe_pattern2_decl (d : ColumnDecl) (rest : Str) (hd : d.WellFormed)
    (hrest : EndsToken rest) :
    matchRe pattern2 accept (d.text ++ rest) [] = some (d.caps, rest) := by
  obtain ⟨hname, hgap, htype, hmod⟩ := hd
  have hrw : ∀ x xs, rest = x :: xs → isWord x = false := fun x xs h => (hrest x xs h).1
  have hrs : ∀ x xs, rest = x :: xs → isSpace x = false := fun x xs h => (hrest x xs h).2
  have htext : d.text ++ rest
      = '`' :: (d.name ++ ('`' :: (d.gap ++ (d.sqlType ++ (d.modifierText ++ rest))))) := by
    simp [ColumnDecl.text, List.append_assoc]
  -- the part of the pattern after the type
  have htail : ∀ c : Caps,
      matchRe (Re.cat [.star (.cls isSpace) true,
          .opt (.group 3 (Re.plus (.cls isWord) true)) true]) accept (d.modifierText ++ rest) c
        = some ((match d.modifier with
                 | none => c
                 | some (_, m) => (3, m) :: c), rest) := by
    intro c
    rw [matchRe_cat_cons]
    cases hmd : d.modifier with
    | none =>
      have hmt : d.modifierText = [] := by simp [ColumnDecl.modifierText, hmd]
      rw [hmt, List.nil_append]
      have := matchRe_star_greedy_cls isSpace
        (matchRe (Re.cat [.opt (.group 3 (Re.plus (.cls isWord) true)) true]) accept) [] rest c
        (by simp) hrs (Or.inl (by rw [matchRe_modifier_none rest c hrw]; rfl))
      rw [List.nil_append] at this
      rw [this, matchRe_modifier_none rest c hrw]
    | some wm =>
      obtain ⟨ws, m⟩ := wm
      rw [hmd] at hmod
      obtain ⟨hws, hm⟩ := hmod
      have hmt : d.modifierText = ws ++ m := by simp [ColumnDecl.modifierText, hmd]
      rw [hmt, List.append_assoc,
        matchRe_star_greedy_cls isSpace _ ws (m ++ rest) c hws.2
          (fun x xs h => isSpace_of_isWord (head_of_bareword hm rest x xs h))
          (Or.inl (by rw [matchRe_modifier_some m rest c hm hrw]; rfl)),
        matchRe_modifier_some m rest c hm hrw]
  have hafter : ∀ x xs, d.modifierText ++ rest = x :: xs → isWord x = false := by
    intro x xs h
    cases hmd : d.modifier with
    | none =>
      have hmt : d.modifierText = [] := by simp [ColumnDecl.modifierText, hmd]
      rw [hmt, List.nil_append] at h
      exact hrw x xs h
    | some wm =>
      obtain ⟨ws, m⟩ := wm
      rw [hmd] at hmod
      have hmt : d.modifierText = ws ++ m := by simp [ColumnDecl.modifierText, hmd]
      rw [hmt, List.append_assoc] at h
      exact isWord_of_isSpace (head_of_blank hmod.1 _ x xs h)
  rw [htext]
  unfold pattern2
  rw [matchRe_cat_cons, matchRe_char_cons, if_pos rfl, matchRe_cat_cons,
    matchRe_group_plus_greedy 1 isWord _ d.name _ [] hname.1 hname.2
      (fun x xs h => by
        simp only [List.cons.injEq] at h
        rw [← h.1]; decide)
      (Or.inr fun x xs c' hx => by
        rw [matchRe_cat_cons, matchRe_char_cons, if_neg (ne_backtick_of_isWord hx)]),
    matchRe_cat_cons, matchRe_char_cons, if_pos rfl, matchRe_cat_cons,
    matchRe_plus_greedy_cls isSpace _ d.gap _ _ hgap.1 hgap.2
      (fun x xs h => isSpace_of_isWord (head_of_bareword htype _ x xs h))
      (Or.inr fun x xs hx => by
        rw [matchRe_cat_cons]
        exact matchRe_group_plus_of_head 2 isWord true _ _ _
          (fun y ys h => by
            simp only [List.cons.injEq] at h
            rw [← h.1]; exact isWord_of_isSpace hx)),
    matchRe_cat_cons,
    matchRe_group_plus_greedy 2 isWord _ d.sqlType _ _ htype.1 htype.2 hafter
      (Or.inl (by rw [htail]; rfl)),
    htail]
  unfold ColumnDecl.caps
  cases d.modifier with
  | none => rfl
  | some wm => rfl

theorem pattern2_ncap : pattern2.ncap = 3 := by decide

theorem matchAt_pattern2_decl (d : ColumnDecl) (rest : Str) (hd : d.WellFormed)
    (hrest : EndsToken rest) :
    matchAt pattern2 (d.text ++ rest) = some (d.submatch, d.text.length) := by
  unfold matchAt
  rw [matchRe_pattern2_decl d rest hd hrest]
  have hlen : (d.text ++ rest).length - rest.length = d.text.length := by simp
  have hcaps : (List.range pattern2.ncap).map (fun i => capture d.caps (i + 1))
      = [d.name, d.sqlType, d.token] := by
    rw [pattern2_ncap]
    unfold ColumnDecl.caps ColumnDecl.token
    cases d.modifier with
    | none => rfl
    | some wm => rfl
  simp only [hlen, hcaps, List.take_left']
  rfl

theorem matchAt_pattern2_nil : matchAt pattern2 [] = none := by decide

theorem matchAt_pattern2_of_ne (x : Char) (xs : Str) (hx : x ≠ '`') :
    matchAt pattern2 (x :: xs) = none := by
  unfold matchAt pattern2
  rw [matchRe_cat_cons, matchRe_char_cons, if_neg hx]

/-! ## The scan -/

theorem findAllFrom_skip (re : Re) (a b : Str) :
    findAllFrom re (a ++ b) a.length true = findAllFrom re b 0 true := by
  induction a with
  | nil => rfl
  | cons x a ih => simpa [findAllFrom] using ih

/-- A non-empty match at the current position is reported and the scan goes on
after it. -/
theorem findAllFrom_match (re : Re) (a b : Str) (m : List Str) (adj : Bool) (ha : a ≠ [])
    (h : matchAt re (a ++ b) = some (m, a.length)) :
    findAllFrom re (a ++ b) 0 adj = m :: findAllFrom re b 0 true := by
  cases a with
  | nil => exact absurd rfl ha
  | cons x a =>
    simp only [List.cons_append, List.length_cons] at h ⊢
    simp only [findAllFrom, h]
    exact congrArg _ (findAllFrom_skip re a b)

/-- Where no match starts, the scan moves on by one rune. -/
theorem findAllFrom_no_match (re : Re) (x : Char) (xs : Str) (adj : Bool)
    (h : matchAt re (x :: xs) = none) :
    findAllFrom re (x :: xs) 0 adj = findAllFrom re xs 0 false := by
  simp only [findAllFrom, h]

/-- The text of a table body: the declarations, separated by commas. -/
theorem findAllFrom_pattern2_body : ∀ (ds : List ColumnDecl) (adj : Bool),
    (∀ d ∈ ds, d.WellFormed) →
    findAllFrom pattern2 (stringsJoin (ds.map ColumnDecl.text) ",".toList) 0 adj
      = ds.map ColumnDecl.submatch := by
  intro ds
  induction ds with
  | nil =>
    intro adj _
    simp [stringsJoin, findAllFrom, matchAt_pattern2_nil]
  | cons d ds ih =>
    intro adj h
    have hd := h d (List.mem_cons_self _ _)
    have hds : ∀ d' ∈ ds, d'.WellFormed := fun d' hd' => h d' (List.mem_cons_of_mem _ hd')
    have hne : d.text ≠ [] := by simp [ColumnDecl.text]
    cases ds with
    | nil =>
      have := findAllFrom_match pattern2 d.text [] d.submatch adj hne
        (matchAt_pattern2_decl d [] hd (fun x xs h => by cases h))
      simp only [List.append_nil] at this
      simp only [List.map_cons, List.map_nil, stringsJoin, this]
      simp [findAllFrom, matchAt_pattern2_nil]
    | cons d' ds =>
      have hjoin : stringsJoin ((d :: d' :: ds).map ColumnDecl.text) ",".toList
          = d.text ++ (',' :: stringsJoin ((d' :: ds).map ColumnDecl.text) ",".toList) := by
        simp [stringsJoin]
      rw [hjoin, findAllFrom_match pattern2 d.text _ d.submatch adj hne
        (matchAt_pattern2_decl d _ hd (fun x xs h => by
          simp only [List.cons.injEq] at h
          rw [← h.1]; decide)),
        findAllFrom_no_match pattern2 ',' _ true (matchAt_pattern2_of_ne ',' _ (by decide)),
        ih false hds]
      rfl

/-! ## The loops of the extractor -/

theorem columnsLoop_submatch (U : Library) : ∀ (ds : List ColumnDecl) (table : Table),
    columnsLoop U (ds.map ColumnDecl.submatch) table
      = .ok { table with
          Columns := table.Columns ++ ds.map fun d => newColumn U d.name d.sqlType d.unsigned } := by
  intro ds
  induction ds with
  | nil => intro table; simp [columnsLoop]
  | cons d ds ih =>
    intro table
    have hu : decide (d.token = "unsigned".toList) = d.unsigned := by
      unfold ColumnDecl.token ColumnDecl.unsigned
      cases d.modifier with
      | none => decide
      | some wm => rfl
    have h1 : index d.submatch 1 = .ok d.name := rfl
    have h2 : index d.submatch 2 = .ok d.sqlType := rfl
    have h3 : index d.submatch 3 = .ok d.token := rfl
    simp only [List.map_cons, columnsLoop, h1, h2, h3, hu, ih]
    simp

/-! ## The table pattern on a block -/

theorem prefix_of_prefix_append_cons {a w : Str} {y : Char} {z : Str} (hy : y ∉ a) :
    a <+: w ++ y :: z → a <+: w := by
  induction a generalizing w with
  | nil => intro _; exact List.nil_prefix
  | cons h a ih =>
    intro hp
    cases w with
    | nil =>
      simp only [List.nil_append, List.cons_prefix_cons] at hp
      exact absurd (hp.1 ▸ List.mem_cons_self _ _) hy
    | cons h' w' =>
      simp only [List.cons_append, List.cons_prefix_cons] at hp ⊢
      exact ⟨hp.1, ih (fun m => hy (List.mem_cons_of_mem _ m)) hp.2⟩

theorem dropWhile_append_cons (p : Char → Bool) (w : Str) (y : Char) (z : Str)
    (hy : p y = false) : (w ++ y :: z).dropWhile p = w.dropWhile p ++ y :: z := by
  induction w with
  | nil => simp [hy]
  | cons x w ih =>
    by_cases hx : p x = true
    · simp [hx, ih]
    · simp [hx]

/-- A closing that starts inside a text and runs into a following closing
parenthesis lies inside the text. -/
theorem closesAt_append (u : Str) (z : Str) (hu : u ≠ []) (h : closesAt u = false) :
    closesAt (u ++ ')' :: z) = false := by
  cases u with
  | nil => exact absurd rfl hu
  | cons x t =>
    unfold closesAt at h ⊢
    simp only [List.cons_append]
    by_cases hx : x = ')'
    · simp only [hx, decide_True, Bool.true_and] at h ⊢
      rw [dropWhile_append_cons isSpace t ')' z (by decide)]
      cases hp : "engine".toList.isPrefixOf (t.dropWhile isSpace ++ ')' :: z) with
      | false => rfl
      | true =>
        rw [List.isPrefixOf_iff_prefix] at hp
        have := prefix_of_prefix_append_cons (by decide) hp
        rw [← List.isPrefixOf_iff_prefix, h] at this
        cases this
    · simp [hx]

theorem closesAt_of_closesWithin : ∀ (u1 u2 : Str), closesWithin (u1 ++ u2) = false →
    closesAt u2 = false := by
  intro u1
  induction u1 with
  | nil =>
    intro u2 h
    cases u2 with
    | nil => rfl
    | cons x xs =>
      simp only [List.nil_append, closesWithin, Bool.or_eq_false_iff] at h
      exact h.1
  | cons y u1 ih =>
    intro u2 h
    simp only [List.cons_append, closesWithin, Bool.or_eq_false_iff] at h
    exact ih u2 h.2

theorem matchRe_closingRe_none (t : Str) (c : Caps) (h : closesAt t = false) :
    matchRe closingRe accept t c = none := by
  unfold closingRe
  cases t with
  | nil => rfl
  | cons x t =>
    rw [matchRe_cat_cons, matchRe_char_cons]
    by_cases hx : x = ')'
    · rw [if_pos hx, matchRe_cat_cons, matchRe_star,
        starLoop_greedy_cls isSpace _ c t _ (Nat.le_refl _)
          (Or.inr fun y ys hy => by
            rw [matchRe_cat_cons]
            apply matchRe_lit_mismatch
            intro hp
            simp only [String.toList, List.cons_prefix_cons] at hp
            rw [← hp.1] at hy
            revert hy; decide),
        matchRe_cat_cons]
      apply matchRe_lit_mismatch
      intro hp
      rw [← List.isPrefixOf_iff_prefix] at hp
      simp only [closesAt, hx, decide_True, Bool.true_and] at h
      rw [h] at hp
      cases hp
    · rw [if_neg hx]

theorem matchRe_closingRe_closing (rest : Str) (c : Caps) :
    matchRe closingRe accept (blockClosing ++ rest) c = some (c, rest) := by
  have hk : matchRe (Re.cat [Re.lit "engine".toList]) accept ("engine".toList ++ rest) c
      = some (c, rest) := by
    rw [matchRe_cat_cons, matchRe_lit_append]; rfl
  have hstar := matchRe_star_greedy_cls isSpace
    (matchRe (Re.cat [Re.lit "engine".toList]) accept) [' '] ("engine".toList ++ rest) c
    (by decide) (fun x xs h => by
      simp only [String.toList, List.cons_append, List.cons.injEq] at h
      rw [← h.1]; decide)
    (Or.inl (by rw [hk]; rfl))
  unfold closingRe
  show matchRe (Re.cat [.char ')', .star (.cls isSpace) true, Re.lit "engine".toList]) accept
    (')' :: ([' '] ++ ("engine".toList ++ rest))) c = some (c, rest)
  rw [matchRe_cat_cons, matchRe_char_cons, if_pos rfl, matchRe_cat_cons, hstar, hk]

theorem pattern1_tail_eq :
    Re.cat [.char ')', .star (.cls isSpace) true, Re.lit "engine".toList] = closingRe := rfl

/-- On a block whose body holds no earlier closing, `pattern1` captures the
table name and the whole body. -/
theorem matchRe_pattern1_block (name body rest : Str) (hname : IsBareword name)
    (hbody : body ≠ []) (hclose : closesWithin body.tail = false) :
    matchRe pattern1 accept
        (blockOpening ++ (name ++ ('`' :: (body ++ (blockClosing ++ rest))))) []
      = some ([(2, body), (1, name)], rest) := by
  cases body with
  | nil => exact absurd rfl hbody
  | cons b0 body' =>
    simp only [List.tail_cons] at hclose
    have htake : (b0 :: body' ++ (blockClosing ++ rest)).take
        ((b0 :: body' ++ (blockClosing ++ rest)).length - (blockClosing ++ rest).length)
          = b0 :: body' := by
      have : (b0 :: body' ++ (blockClosing ++ rest)).length - (blockClosing ++ rest).length
          = (b0 :: body').length := by
        simp only [List.length_append, List.length_cons]; omega
      rw [this]; exact List.take_left' rfl
    unfold pattern1 blockOpening
    rw [matchRe_cat_cons, matchRe_lit_append, matchRe_cat_cons,
      matchRe_group_plus_greedy 1 isWord _ name _ [] hname.1 hname.2
        (fun x xs h => by
          simp only [List.cons.injEq] at h
          rw [← h.1]; decide)
        (Or.inr fun x xs c' hx => by
          rw [matchRe_cat_cons, matchRe_char_cons, if_neg (ne_backtick_of_isWord hx)]),
      matchRe_cat_cons, matchRe_char_cons, if_pos rfl, matchRe_cat_cons, matchRe_group,
      matchRe_plus, List.cons_append, matchRe_cls_cons, if_pos (show isAny b0 = true from rfl),
      matchRe_star, pattern1_tail_eq]
    rw [starLoop_lazy_any _ _ (blockClosing ++ rest) ?_ body' _ (Nat.le_refl _) ?_]
    · rw [← List.cons_append, htake, matchRe_closingRe_closing]
    · rw [matchRe_closingRe_closing]; rfl
    · intro u1 u2 hu hu2
      beta_reduce
      apply matchRe_closingRe_none
      subst hu
      exact closesAt_append u2 _ hu2 (closesAt_of_closesWithin u1 u2 hclose)

theorem pattern1_ncap : pattern1.ncap = 2 := by decide

theorem matchAt_pattern1_block (name body rest : Str) (hname : IsBareword name)
    (hbody : body ≠ []) (hclose : closesWithin body.tail = false) :
    matchAt pattern1 ((blockOpening ++ (name ++ ('`' :: (body ++ blockClosing)))) ++ rest)
      = some ([blockOpening ++ (name ++ ('`' :: (body ++ blockClosing))), name, body],
          (blockOpening ++ (name ++ ('`' :: (body ++ blockClosing)))).length) := by
  have hassoc : (blockOpening ++ (name ++ ('`' :: (body ++ blockClosing)))) ++ rest
      = blockOpening ++ (name ++ ('`' :: (body ++ (blockClosing ++ rest)))) := by
    simp [List.append_assoc]
  unfold matchAt
  rw [hassoc, matchRe_pattern1_block name body rest hname hbody hclose, ← hassoc]
  have hlen : ((blockOpening ++ (name ++ ('`' :: (body ++ blockClosing)))) ++ rest).length
      - rest.length = (blockOpening ++ (name ++ ('`' :: (body ++ blockClosing)))).length := by
    simp only [List.length_append, List.length_cons]; omega
  simp only [hlen, List.take_left', pattern1_ncap]
  rfl

theorem matchAt_pattern1_nil : matchAt pattern1 [] = none := by decide

theorem matchAt_pattern1_no_opening (s : Str) (h : ¬ blockOpening <+: s) :
    matchAt pattern1 s = none := by
  unfold blockOpening at h
  unfold matchAt pattern1
  rw [matchRe_cat_cons, matchRe_lit_mismatch _ _ _ _ h]

/-! ## Lower-casing -/

theorem bytesToLower_append (U : Library) (a b : Str) :
    bytesToLower U (a ++ b) = bytesToLower U a ++ bytesToLower U b := by
  simp [bytesToLower]

theorem bytesToLower_backtick (U : Library) (s : Str) :
    bytesToLower U ('`' :: s) = '`' :: bytesToLower U s := by
  have : unicodeToLower U '`' = '`' := by
    rw [unicodeToLower_ascii U .ascii (by decide)]; decide
  simp [bytesToLower, this]

theorem isWord_ofNat_add : ∀ n < 91, 65 ≤ n → isWord (Char.ofNat (n + 32)) = true := by
  decide

theorem isWord_unicodeToLower (U : Library) {r : Char} (h : isWord r = true) :
    isWord (unicodeToLower U r) = true := by
  have hascii : r.toNat ≤ 0x7F := by
    simp only [isWord, isDigit09, isLowerAZ, isUpperAZ, Bool.or_eq_true, Bool.and_eq_true,
      decide_eq_true_eq] at h
    rcases h with ((h | h) | h) | h
    · omega
    · omega
    · omega
    · subst h; decide
  unfold unicodeToLower
  rw [if_pos hascii]
  split
  · rename_i hu
    simp only [isUpperAZ, Bool.and_eq_true, decide_eq_true_eq] at hu
    exact isWord_ofNat_add r.toNat (by omega) hu.1
  · exact h

theorem isBareword_bytesToLower (U : Library) {s : Str} (h : IsBareword s) :
    IsBareword (bytesToLower U s) := by
  refine ⟨by simpa [bytesToLower] using h.1, ?_⟩
  intro r hr
  obtain ⟨r', hr', rfl⟩ := List.mem_map.1 hr
  exact isWord_unicodeToLower U (h.2 r' hr')

theorem bytesToLower_block (U : Library) (b : TableBlock) (hb : b.WellFormed U) :
    bytesToLower U b.text
      = blockOpening
          ++ (bytesToLower U b.name ++ ('`' :: (bytesToLower U b.body ++ blockClosing))) := by
  obtain ⟨hopen, -, -, -, hclose⟩ := hb
  simp only [TableBlock.text, bytesToLower_append, bytesToLower_backtick, hopen, hclose,
    List.append_assoc, List.cons_append]

/-! ## Between the blocks -/

theorem takeWhile_blockOpening (t : Str) :
    (blockOpening ++ t).takeWhile (fun r => r != '`') = "create table if not exists ".toList := by
  rfl

theorem not_prefix_of_not_mem (g rest : Str) (hg : g ≠ []) (hb : '`' ∉ g)
    (hrest : rest = [] ∨ blockOpening <+: rest) : ¬ blockOpening <+: g ++ rest := by
  intro hp
  obtain ⟨t, ht⟩ := hp
  rcases hrest with hrest | ⟨t', ht'⟩
  · subst hrest
    rw [List.append_nil] at ht
    have : '`' ∈ blockOpening ++ t := List.mem_append_left _ (by decide)
    rw [ht] at this
    exact hb this
  · have h1 := takeWhile_blockOpening t
    rw [ht, List.takeWhile_append_of_pos (fun a ha => by
      simp only [bne_iff_ne, ne_eq]
      intro e; exact hb (e ▸ ha)), ← ht', takeWhile_blockOpening t'] at h1
    have := congrArg List.length h1
    simp only [List.length_append] at this
    exact hg (List.length_eq_zero.1 (by omega))

/-! ## The scan of a source text -/

/-- The lower-cased text of the blocks, each with the text that follows it. -/
theorem bytesToLower_blocks_cons (U : Library) (b : TableBlock) (g : Str)
    (bs : List (TableBlock × Str)) (hb : b.WellFormed U) :
    bytesToLower U (((b, g) :: bs).map fun bg => bg.1.text ++ bg.2).flatten
      = (blockOpening
          ++ (bytesToLower U b.name ++ ('`' :: (bytesToLower U b.body ++ blockClosing))))
        ++ (bytesToLower U g ++ bytesToLower U (bs.map fun bg => bg.1.text ++ bg.2).flatten) := by
  simp only [List.map_cons, List.flatten_cons, bytesToLower_append, bytesToLower_block U b hb,
    List.append_assoc]

theorem blocks_start (U : Library) (bs : List (TableBlock × Str))
    (h : ∀ bg ∈ bs, bg.1.WellFormed U ∧ NoBacktick U bg.2) :
    bytesToLower U (bs.map fun bg => bg.1.text ++ bg.2).flatten = []
      ∨ blockOpening <+: bytesToLower U (bs.map fun bg => bg.1.text ++ bg.2).flatten := by
  cases bs with
  | nil => exact Or.inl rfl
  | cons bg bs =>
    obtain ⟨b, g⟩ := bg
    right
    rw [bytesToLower_blocks_cons U b g bs (h (b, g) (List.mem_cons_self _ _)).1,
      List.append_assoc]
    exact List.prefix_append _ _

theorem findAllFrom_pattern1_gap (rest : Str) (hrest : rest = [] ∨ blockOpening <+: rest) :
    ∀ (g : Str) (adj : Bool), '`' ∉ g → g ≠ [] →
      findAllFrom pattern1 (g ++ rest) 0 adj = findAllFrom pattern1 rest 0 false := by
  intro g
  induction g with
  | nil => intro _ _ h; exact absurd rfl h
  | cons x g ih =>
    intro adj hb _
    have hb' : '`' ∉ g := fun m => hb (List.mem_cons_of_mem _ m)
    rw [List.cons_append, findAllFrom_no_match pattern1 x (g ++ rest) adj
      (matchAt_pattern1_no_opening _
        (not_prefix_of_not_mem (x :: g) rest (by simp) hb hrest))]
    cases g with
    | nil => rfl
    | cons y g => exact ih false hb' (by simp)

theorem findAllFrom_pattern1_source (U : Library) : ∀ (bs : List (TableBlock × Str)),
    (∀ bg ∈ bs, bg.1.WellFormed U ∧ NoBacktick U bg.2) →
    ∀ (g : Str) (adj : Bool), '`' ∉ g →
      findAllFrom pattern1
          (g ++ bytesToLower U (bs.map fun bg => bg.1.text ++ bg.2).flatten) 0 adj
        = bs.map fun bg => bg.1.submatch U := by
  intro bs
  induction bs with
  | nil =>
    intro _ g adj hg
    have hnil : ∀ adj', findAllFrom pattern1 [] 0 adj' = [] := by
      intro adj'; simp [findAllFrom, matchAt_pattern1_nil]
    cases g with
    | nil => exact hnil adj
    | cons x g =>
      have := findAllFrom_pattern1_gap [] (Or.inl rfl) (x :: g) adj hg (by simp)
      simp only [List.map_nil, List.flatten_nil, bytesToLower, List.append_nil] at this ⊢
      rw [this]; exact hnil false
  | cons bg bs ih =>
    obtain ⟨b, gap⟩ := bg
    intro h g adj hg
    have hb := h (b, gap) (List.mem_cons_self _ _)
    have hbs : ∀ bg ∈ bs, bg.1.WellFormed U ∧ NoBacktick U bg.2 :=
      fun bg hbg => h bg (List.mem_cons_of_mem _ hbg)
    have hne : blockOpening
        ++ (bytesToLower U b.name ++ ('`' :: (bytesToLower U b.body ++ blockClosing))) ≠ [] := by
      simp [blockOpening]
    have hbody : bytesToLower U b.body ≠ [] := by simpa [bytesToLower] using hb.1.2.2.1
    have hhead : ∀ adj', findAllFrom pattern1
        (bytesToLower U (((b, gap) :: bs).map fun bg => bg.1.text ++ bg.2).flatten) 0 adj'
          = ((b, gap) :: bs).map fun bg => bg.1.submatch U := by
      intro adj'
      rw [bytesToLower_blocks_cons U b gap bs hb.1,
        findAllFrom_match pattern1 _ _ (b.submatch U) adj' hne
          (matchAt_pattern1_block _ _ _ (isBareword_bytesToLower U hb.1.2.1) hbody
            hb.1.2.2.2.1),
        ih hbs (bytesToLower U gap) true hb.2]
      rfl
    cases g with
    | nil => exact hhead adj
    | cons x g =>
      rw [findAllFrom_pattern1_gap _ (blocks_start U _ h) (x :: g) adj hg (by simp)]
      exact hhead false

/-! ## The loops of the extractor, on any matches -/

theorem matchAt_length {re : Re} {s : Str} {m : List Str} {n : Nat}
    (h : matchAt re s = some (m, n)) : m.length = re.ncap + 1 := by
  unfold matchAt at h
  split at h
  · simp at h
  · simp only [Option.some.injEq, Prod.mk.injEq] at h
    rw [← h.1]; simp

theorem findAllFrom_length (re : Re) : ∀ (s : Str) (skip : Nat) (adj : Bool),
    ∀ m ∈ findAllFrom re s skip adj, m.length = re.ncap + 1 := by
  intro s
  induction s with
  | nil =>
    intro skip adj m hm
    unfold findAllFrom at hm
    split at hm
    · rename_i m' n' hmatch
      split at hm
      · simp at hm
      · simp only [List.mem_singleton] at hm
        subst hm; exact matchAt_length hmatch
    · simp at hm
  | cons y ys ih =>
    intro skip adj m hm
    cases skip with
    | succ k =>
      simp only [findAllFrom] at hm
      exact ih k true m hm
    | zero =>
      simp only [findAllFrom] at hm
      split at hm
      · exact ih 0 false m hm
      · rename_i m' hmatch
        split at hm
        · exact ih 0 false m hm
        · rcases List.mem_cons.1 hm with h | h
          · subst h; exact matchAt_length hmatch
          · exact ih 0 false m h
      · rename_i m' n' hmatch
        rcases List.mem_cons.1 hm with h | h
        · subst h; exact matchAt_length hmatch
        · exact ih n' true m h

theorem columnsLoop_of_length (U : Library) : ∀ (ms : List (List Str)) (table : Table),
    (∀ m ∈ ms, m.length = 4) →
    columnsLoop U ms table
      = .ok { table with Columns := table.Columns ++ ms.map (columnOf U) } := by
  intro ms
  induction ms with
  | nil => intro table _; simp [columnsLoop]
  | cons m ms ih =>
    intro table h
    have hm := h m (List.mem_cons_self _ _)
    have hms : ∀ m' ∈ ms, m'.length = 4 := fun m' hm' => h m' (List.mem_cons_of_mem _ hm')
    match m, hm with
    | [a, b, c, d], _ =>
      have h1 : index [a, b, c, d] 1 = .ok b := rfl
      have h2 : index [a, b, c, d] 2 = .ok c := rfl
      have h3 : index [a, b, c, d] 3 = .ok d := rfl
      simp only [columnsLoop, h1, h2, h3, ih _ hms]
      simp [columnOf]

/-- On a match of `pattern1`, `parseTable` returns the table of the captured
name and body. -/
theorem parseTable_submatch (U : Library) (whole name body : Str) :
    parseTable U [whole, name, body] = .ok (tableOf U name body) := by
  have h1 : index [whole, name, body] 1 = .ok name := rfl
  have h2 : index [whole, name, body] 2 = .ok body := rfl
  simp only [parseTable, h1, h2]
  rw [columnsLoop_of_length U _ _ fun m hm => by
    rw [findAllFrom_length pattern2 body 0 false m hm, pattern2_ncap]]
  simp [newTable, tableOf]

theorem tablesLoop_blocks (U : Library) : ∀ (bs : List (TableBlock × Str))
    (tables : List Table),
    tablesLoop U (bs.map fun bg => bg.1.submatch U) tables
      = .ok (tables ++ bs.map fun bg =>
          tableOf U (bytesToLower U bg.1.name) (bytesToLower U bg.1.body)) := by
  intro bs
  induction bs with
  | nil => intro tables; simp [tablesLoop]
  | cons bg bs ih =>
    intro tables
    have hp : parseTable U (bg.1.submatch U)
        = .ok (tableOf U (bytesToLower U bg.1.name) (bytesToLower U bg.1.body)) :=
      parseTable_submatch U _ _ _
    simp only [List.map_cons, tablesLoop, hp, ih]
    simp

/-- The tables `parseSQL` returns for a source text made of well-formed
blocks. -/
theorem parseSQL_sourceText (U : Library) (lead : Str) (blocks : List (TableBlock × Str))
    (hlead : NoBacktick U lead)
    (hblocks : ∀ bg ∈ blocks, bg.1.WellFormed U ∧ NoBacktick U bg.2) :
    parseSQL U (sourceText lead blocks) []
      = .ok (blocks.map fun bg =>
          tableOf U (bytesToLower U bg.1.name) (bytesToLower U bg.1.body)) := by
  unfold parseSQL sourceText findAllStringSubmatch
  simp only [if_true, bytesToLower_append]
  rw [findAllFrom_pattern1_source U blocks hblocks _ false hlead, tablesLoop_blocks]
  rfl

theorem findAllFrom_pattern1_no_opening : ∀ (s : Str) (adj : Bool),
    ¬ blockOpening <:+: s → findAllFrom pattern1 s 0 adj = [] := by
  intro s
  induction s with
  | nil => intro adj _; simp [findAllFrom, matchAt_pattern1_nil]
  | cons x xs ih =>
    intro adj h
    rw [findAllFrom_no_match pattern1 x xs adj
      (matchAt_pattern1_no_opening _ fun hp => h hp.isInfix)]
    exact ih false fun hi => h (List.infix_cons hi)

/-! ## The mode argument -/

theorem modesLoop_eq (modes : List Str) : ∀ outputTypes : List OutputType,
    modesLoop modes outputTypes = outputTypes ++ flavours modes := by
  induction modes with
  | nil => intro o; simp [modesLoop, flavours]
  | cons m ms ih =>
    intro o
    unfold modesLoop
    by_cases h1 : m = "sql".toList
    · have hf : flavourOf m = some .sqlTable := by rw [flavourOf, if_pos h1]
      simp only [if_pos h1, ih, flavours, List.filterMap_cons, hf, List.append_assoc,
        List.singleton_append]
    · by_cases h2 : m = "json".toList
      · have hf : flavourOf m = some .sqlTableWithJSON := by
          rw [flavourOf, if_neg h1, if_pos h2]
        simp only [if_neg h1, if_pos h2, ih, flavours, List.filterMap_cons, hf,
          List.append_assoc, List.singleton_append]
      · by_cases h3 : m = "sb".toList
        · have hf : flavourOf m = some .sbTable := by
            rw [flavourOf, if_neg h1, if_neg h2, if_pos h3]
          simp only [if_neg h1, if_neg h2, if_pos h3, ih, flavours, List.filterMap_cons, hf,
            List.append_assoc, List.singleton_append]
        · have hf : flavourOf m = none := by
            rw [flavourOf, if_neg h1, if_neg h2, if_neg h3]
          simp only [if_neg h1, if_neg h2, if_neg h3, ih, flavours, List.filterMap_cons, hf]

theorem byteLen_append (a b : Str) : byteLen (a ++ b) = byteLen a + byteLen b := by
  simp [byteLen]

/-! ## Text without backticks holds no column -/

theorem findAllFrom_pattern2_lead : ∀ (lead : Str), '`' ∉ lead → ∀ (rest : Str) (adj : Bool)
    (found : List (List Str)), (∀ adj', findAllFrom pattern2 rest 0 adj' = found) →
    findAllFrom pattern2 (lead ++ rest) 0 adj = found := by
  intro lead
  induction lead with
  | nil => intro _ rest adj found h; exact h adj
  | cons x lead ih =>
    intro hb rest adj found h
    have hx : x ≠ '`' := fun e => hb (e ▸ List.mem_cons_self _ _)
    rw [List.cons_append, findAllFrom_no_match pattern2 x _ adj (matchAt_pattern2_of_ne x _ hx)]
    exact ih (fun m => hb (List.mem_cons_of_mem _ m)) rest false found h

theorem findAllFrom_pattern2_plain (s : Str) (h : '`' ∉ s) (adj : Bool) :
    findAllFrom pattern2 s 0 adj = [] := by
  have := findAllFrom_pattern2_lead s h [] adj []
    (fun adj' => by simp [findAllFrom, matchAt_pattern2_nil])
  simpa using this

/-! ## The default casing of `title` -/

theorem titleFrom_no_separator (U : Library) : ∀ (s : Str) (prev : Char),
    isSeparator prev = false → (∀ r ∈ s, isSeparator r = false) → titleFrom U prev s = s := by
  intro s
  induction s with
  | nil => intro _ _ _; rfl
  | cons r rs ih =>
    intro prev hp hs
    have hr := hs r (List.mem_cons_self _ _)
    simp only [titleFrom, hp, Bool.false_eq_true, if_false,
      ih r hr fun x hx => hs x (List.mem_cons_of_mem _ hx)]

/-- On a word without separator `strings.Title` is first-letter-up casing. -/
theorem stringsTitle_no_separator (U : Library) (s : Str)
    (hs : ∀ r ∈ s, isSeparator r = false) : stringsTitle U s = firstUp U s := by
  cases s with
  | nil => rfl
  | cons r rs =>
    have hsp : isSeparator ' ' = true := by decide
    simp only [stringsTitle, titleFrom, hsp, if_true, firstUp,
      titleFrom_no_separator U rs r (hs r (List.mem_cons_self _ _))
        fun x hx => hs x (List.mem_cons_of_mem _ hx)]

/-! ## Every table and column is normalised -/

theorem columnsLoop_normalised (U : Library) : ∀ (ms : List (List Str)) (table t : Table),
    table.Normalised U → columnsLoop U ms table = .ok t → t.Normalised U := by
  intro ms
  induction ms with
  | nil =>
    intro table t ht h
    simp only [columnsLoop, Except.ok.injEq] at h
    exact h ▸ ht
  | cons m ms ih =>
    intro table t ht h
    unfold columnsLoop at h
    cases h1 : index m 1 with
    | error e => rw [h1] at h; cases h
    | ok m1 =>
      cases h2 : index m 2 with
      | error e => rw [h1, h2] at h; cases h
      | ok m2 =>
        cases h3 : index m 3 with
        | error e => rw [h1, h2, h3] at h; cases h
        | ok m3 =>
          simp only [h1, h2, h3] at h
          refine ih { table with Columns := table.Columns ++ [newColumn U m1 m2
            (decide (m3 = "unsigned".toList))] } t ⟨ht.1, ?_⟩ h
          intro c hc
          rcases List.mem_append.1 hc with hc | hc
          · exact ht.2 c hc
          · simp only [List.mem_singleton] at hc
            subst hc
            exact ⟨rfl, rfl⟩

theorem parseTable_normalised (U : Library) (m : List Str) (t : Table)
    (h : parseTable U m = .ok t) : t.Normalised U := by
  unfold parseTable at h
  cases h1 : index m 1 with
  | error e => rw [h1] at h; cases h
  | ok name =>
    cases h2 : index m 2 with
    | error e => rw [h1, h2] at h; cases h
    | ok content =>
      simp only [h1, h2] at h
      exact columnsLoop_normalised U _ _ t ⟨rfl, by simp [newTable]⟩ h

theorem tablesLoop_normalised (U : Library) : ∀ (ms : List (List Str))
    (tables result : List Table), (∀ t ∈ tables, t.Normalised U) →
    tablesLoop U ms tables = .ok result → ∀ t ∈ result, t.Normalised U := by
  intro ms
  induction ms with
  | nil =>
    intro tables result ht h
    simp only [tablesLoop, Except.ok.injEq] at h
    exact h ▸ ht
  | cons m ms ih =>
    intro tables result ht h
    unfold tablesLoop at h
    cases hp : parseTable U m with
    | error e => rw [hp] at h; cases h
    | ok table =>
      simp only [hp] at h
      refine ih _ result ?_ h
      intro t htm
      rcases List.mem_append.1 htm with htm | htm
      · exact ht t htm
      · simp only [List.mem_singleton] at htm
        subst htm
        exact parseTable_normalised U m _ hp

theorem parseSQL_all_normalised (U : Library) (sql tableName : Str) (tables : List Table)
    (h : parseSQL U sql tableName = .ok tables) : ∀ t ∈ tables, t.Normalised U := by
  unfold parseSQL at h
  by_cases hn : tableName = []
  · simp only [hn, if_true] at h
    exact tablesLoop_normalised U _ [] tables (by simp) h
  · simp only [hn, if_false] at h
    cases hp : pattern3 U tableName with
    | error e => rw [hp] at h; cases h
    | ok p =>
      simp only [hp] at h
      cases ht : parseTable U (p.findStringSubmatch U (bytesToLower U sql)) with
      | error e => simp only [ht] at h; cases h
      | ok table =>
        simp only [ht, Except.ok.injEq] at h
        subst h
        intro t htm
        simp only [List.mem_singleton] at htm
        subst htm
        exact parseTable_normalised U _ _ ht

/-! ## A declaration with a display width -/

theorem newColumn_id_int (U : Library) :
    newColumn U "id".toList "int".toList false
      = { RawName := "id".toList, Name := "ID".toList, RawType := "int".toList,
          Type' := "int32".toList, Unsigned := false } := by
  rw [newColumn_ascii U .ascii (by decide)]; decide

/-- The matches of `pattern2` in a text that holds the declaration
"\x60id\x60 int(10) unsigned" and no other backtick. -/
theorem findAllFrom_pattern2_display_width (lead tail : Str) (hl : '`' ∉ lead)
    (ht : '`' ∉ tail) (adj : Bool) :
    findAllFrom pattern2 (lead ++ "`id` int(10) unsigned".toList ++ tail) 0 adj
      = [["`id` int".toList, "id".toList, "int".toList, []]] := by
  have hd : (⟨"id".toList, " ".toList, "int".toList, none⟩ : ColumnDecl).WellFormed := by decide
  have htext : lead ++ "`id` int(10) unsigned".toList ++ tail
      = lead ++ ((⟨"id".toList, " ".toList, "int".toList, none⟩ : ColumnDecl).text
          ++ ("(10) unsigned".toList ++ tail)) := by
    simp [ColumnDecl.text, ColumnDecl.modifierText]
  rw [htext]
  apply findAllFrom_pattern2_lead lead hl
  intro adj'
  rw [findAllFrom_match pattern2 _ _ _ adj' (by simp [ColumnDecl.text])
    (matchAt_pattern2_decl _ _ hd (fun x xs h => by
      simp only [String.toList, List.cons_append, List.cons.injEq] at h
      rw [← h.1]; decide)),
    findAllFrom_pattern2_plain _ (by
      intro hm
      rcases List.mem_append.1 hm with h | h
      · revert h; decide
      · exact ht h) true]
  rfl

/-! ## Names are exported Go identifiers -/

theorem not_mem_sep_of_mem_stringsSplit (sep : Char) (s : Str) :
    ∀ p ∈ stringsSplit s sep, sep ∉ p := by
  induction s with
  | nil => intro p hp; simp [stringsSplit] at hp; subst hp; simp
  | cons x xs ih =>
    intro p hp
    unfold stringsSplit at hp
    by_cases hx : x = sep
    · rw [if_pos hx] at hp
      rcases List.mem_cons.1 hp with h | h
      · subst h; simp
      · exact ih p h
    · rw [if_neg hx] at hp
      cases hsp : stringsSplit xs sep with
      | nil => exact absurd hsp (stringsSplit_ne_nil xs sep)
      | cons q qs =>
        rw [hsp] at hp ih
        rcases List.mem_cons.1 hp with h | h
        · subst h
          intro hm
          rcases List.mem_cons.1 hm with h' | h'
          · exact hx h'.symm
          · exact ih q (List.mem_cons_self _ _) h'
        · exact ih p (List.mem_cons_of_mem _ h)

theorem stringsSplit_head (sep : Char) (c : Char) (rest : Str) (hc : c ≠ sep) :
    ∃ p ps, stringsSplit (c :: rest) sep = (c :: p) :: ps := by
  unfold stringsSplit
  rw [if_neg hc]
  cases hsp : stringsSplit rest sep with
  | nil => exact absurd hsp (stringsSplit_ne_nil rest sep)
  | cons q qs => exact ⟨q, qs, rfl⟩

theorem isUpperAZ_ofNat_sub : ∀ n < 123, 97 ≤ n → isUpperAZ (Char.ofNat (n - 32)) = true := by
  decide

theorem isUpperAZ_unicodeToTitle (U : Library) {r : Char} (h : isLowerAZ r = true) :
    isUpperAZ (unicodeToTitle U r) = true := by
  have hr : 97 ≤ r.toNat ∧ r.toNat ≤ 122 := by
    simpa only [isLowerAZ, Bool.and_eq_true, decide_eq_true_eq] using h
  unfold unicodeToTitle
  rw [if_pos (by omega), if_pos h]
  exact isUpperAZ_ofNat_sub r.toNat (by omega) hr.1

theorem isSeparator_of_lower_or_digit {r : Char}
    (h : isLowerAZ r = true ∨ isDigit09 r = true) : isSeparator r = false := by
  have hr : r.toNat ≤ 0x7F := by
    rcases h with h | h
    · have : 97 ≤ r.toNat ∧ r.toNat ≤ 122 := by
        simpa only [isLowerAZ, Bool.and_eq_true, decide_eq_true_eq] using h
      omega
    · have : 48 ≤ r.toNat ∧ r.toNat ≤ 57 := by
        simpa only [isDigit09, Bool.and_eq_true, decide_eq_true_eq] using h
      omega
  unfold isSeparator
  rw [if_pos hr]
  rcases h with h | h <;> simp [h]

theorem isAlnum_firstUp (U : Library) (p : Str)
    (hp : ∀ r ∈ p, isLowerAZ r = true ∨ isDigit09 r = true) :
    ∀ r ∈ firstUp U p, isAlnum r = true := by
  cases p with
  | nil => intro r hr; simp [firstUp] at hr
  | cons c p' =>
    intro r hr
    simp only [firstUp, List.mem_cons] at hr
    rcases hr with hr | hr
    · subst hr
      rcases hp c (List.mem_cons_self _ _) with h | h
      · simp [isAlnum, isUpperAZ_unicodeToTitle U h]
      · have hd : 48 ≤ c.toNat ∧ c.toNat ≤ 57 := by
          simpa only [isDigit09, Bool.and_eq_true, decide_eq_true_eq] using h
        have hl : isLowerAZ c = false := by
          simp only [isLowerAZ, Bool.and_eq_false_imp, decide_eq_true_eq, decide_eq_false_iff_not]
          omega
        have : unicodeToTitle U c = c := by
          unfold unicodeToTitle
          rw [if_pos (by omega), hl]; rfl
        rw [this]; simp [isAlnum, h]
    · rcases hp r (List.mem_cons_of_mem _ hr) with h | h <;> simp [isAlnum, h]

/-- The values of the override dictionary are made of ASCII letters and digits
and begin with a capital. -/
theorem transformer_values_alnum (U : Library) {k v : Str}
    (h : mapGet (transformer U) k = some v) :
    (∀ r ∈ v, isAlnum r = true) ∧ ∃ c t, v = c :: t ∧ isUpperAZ c = true := by
  rw [transformer_tables U .ascii] at h
  obtain ⟨k', hk⟩ := mapGet_mem h
  have hall : ∀ q ∈ transformer .ascii,
      (∀ r ∈ q.2, isAlnum r = true) ∧ ∃ c ∈ q.2.head?, isUpperAZ c = true := by decide
  obtain ⟨h1, c, hc, hu⟩ := hall (k', v) hk
  refine ⟨h1, ?_⟩
  cases v with
  | nil => simp at hc
  | cons x t =>
    simp only [List.head?_cons, Option.mem_def, Option.some.injEq] at hc
    exact ⟨x, t, rfl, hc ▸ hu⟩

theorem title_alnum (U : Library) (p : Str)
    (hp : ∀ r ∈ p, isLowerAZ r = true ∨ isDigit09 r = true) :
    ∀ r ∈ title U p, isAlnum r = true := by
  unfold title
  split
  · rename_i t ht; exact (transformer_values_alnum U ht).1
  · rw [stringsTitle_no_separator U p fun r hr => isSeparator_of_lower_or_digit (hp r hr)]
    exact isAlnum_firstUp U p hp

theorem title_head_upper (U : Library) (c : Char) (p : Str) (hc : isLowerAZ c = true)
    (hp : ∀ r ∈ p, isLowerAZ r = true ∨ isDigit09 r = true) :
    ∃ c' t, title U (c :: p) = c' :: t ∧ isUpperAZ c' = true := by
  unfold title
  split
  · rename_i t ht; exact (transformer_values_alnum U ht).2
  · rw [stringsTitle_no_separator U (c :: p) fun r hr => by
      rcases List.mem_cons.1 hr with h | h
      · exact isSeparator_of_lower_or_digit (Or.inl (h ▸ hc))
      · exact isSeparator_of_lower_or_digit (hp r h)]
    exact ⟨unicodeToTitle U c, p, rfl, isUpperAZ_unicodeToTitle U hc⟩

theorem not_isAlnum_underscore {r : Char} (h : isAlnum r = true) : r ≠ '_' := by
  intro e; subst e; revert h; decide

/-- The name made of an identifier of lower-case letters, digits and
underscores that begins with a letter. -/
theorem camelCase_identifier (U : Library) (c : Char) (rest : Str)
    (hc : isLowerAZ c = true)
    (hs : ∀ r ∈ c :: rest, isLowerAZ r = true ∨ isDigit09 r = true ∨ r = '_') :
    (∃ c' t, camelCase U (c :: rest) = c' :: t ∧ isUpperAZ c' = true)
    ∧ ∀ r ∈ camelCase U (c :: rest), isAlnum r = true := by
  have hne : c ≠ '_' := by intro e; subst e; revert hc; decide
  have hseg : ∀ p ∈ stringsSplit (c :: rest) '_', ∀ r ∈ p,
      isLowerAZ r = true ∨ isDigit09 r = true := by
    intro p hp r hr
    rcases hs r (mem_of_mem_stringsSplit '_' _ p hp r hr) with h | h | h
    · exact Or.inl h
    · exact Or.inr h
    · exact absurd (h ▸ hr) (not_mem_sep_of_mem_stringsSplit '_' _ p hp)
  rw [camelCase_eq_flatten]
  constructor
  · obtain ⟨p, ps, hsp⟩ := stringsSplit_head '_' c rest hne
    have hp := hseg (c :: p) (by rw [hsp]; exact List.mem_cons_self _ _)
    obtain ⟨c', t, ht, hu⟩ := title_head_upper U c p hc
      fun r hr => hp r (List.mem_cons_of_mem _ hr)
    exact ⟨c', t ++ (ps.map (title U)).flatten, by simp [hsp, ht], hu⟩
  · intro r hr
    obtain ⟨l, hl, hrl⟩ := List.mem_flatten.1 hr
    obtain ⟨p, hp, rfl⟩ := List.mem_map.1 hl
    exact title_alnum U p (hseg p hp) r hrl

/-! ## The lookup of a table by name -/

theorem isWord_of_isMeta {x : Char} (h : isMeta x = true) : isWord x = false := by
  simp only [isMeta, Bool.or_eq_true, decide_eq_true_eq] at h
  rcases h with ((((((((((((h | h) | h) | h) | h) | h) | h) | h) | h) | h) | h) | h) | h) | h <;>
    subst h <;> decide

theorem pattern3_bareword (U : Library) {n : Str} (hn : IsBareword n) :
    pattern3 U n = .ok (.re (filterRe n)) := by
  have hany : n.any isMeta = false := by
    rw [List.any_eq_false]
    intro x hx hm
    have := isWord_of_isMeta hm
    rw [hn.2 x hx] at this
    cases this
  simp only [pattern3, hany, Bool.false_eq_true, if_false]
  rfl

theorem matchAt_filterRe_no_opening (n s : Str) (h : ¬ blockOpening <+: s) :
    matchAt (filterRe n) s = none := by
  unfold blockOpening at h
  unfold matchAt filterRe
  rw [matchRe_cat_cons, matchRe_lit_mismatch _ _ _ _ h]

/-- The pattern built for one table name does not match at a block that
declares another. -/
theorem matchAt_filterRe_other (n name rest : Str) (hn : IsBareword n)
    (hname : IsBareword name) (hne : name ≠ n) :
    matchAt (filterRe n) (blockOpening ++ (name ++ ('`' :: rest))) = none := by
  have hmatch : matchRe (filterRe n) accept (blockOpening ++ (name ++ ('`' :: rest))) []
      = none := by
    unfold filterRe blockOpening
    rw [matchRe_cat_cons, matchRe_lit_append, matchRe_cat_cons, matchRe_group]
    by_cases hp : n <+: name ++ ('`' :: rest)
    · have hbt : '`' ∉ n := fun hm => ne_backtick_of_isWord (hn.2 _ hm) rfl
      obtain ⟨t, ht⟩ := prefix_of_prefix_append_cons hbt hp
      cases t with
      | nil => exact absurd (by simpa using ht.symm) hne
      | cons x t =>
        have hx : isWord x = true := hname.2 x (by rw [← ht]; simp)
        rw [← ht, List.append_assoc, matchRe_lit_append, matchRe_cat_cons, List.cons_append,
          matchRe_char_cons, if_neg (ne_backtick_of_isWord hx)]
    · exact matchRe_lit_mismatch _ _ _ _ hp
  unfold matchAt
  rw [hmatch]

theorem closesAt_of_closing (t : Str) : closesAt (blockClosing ++ t) = true := by
  simp [closesAt, blockClosing, isSpace, List.isPrefixOf]

theorem matchRe_closing_lit (rest : Str) (c : Caps) :
    matchRe (Re.cat [Re.lit ") engine".toList]) accept (blockClosing ++ rest) c
      = some (c, rest) := by
  unfold blockClosing
  rw [matchRe_cat_cons, matchRe_lit_append]
  rfl

theorem matchRe_closing_lit_none (t : Str) (c : Caps) (h : closesAt t = false) :
    matchRe (Re.cat [Re.lit ") engine".toList]) accept t c = none := by
  rw [matchRe_cat_cons]
  apply matchRe_lit_mismatch
  intro hp
  obtain ⟨t', rfl⟩ := hp
  have := closesAt_of_closing t'
  unfold blockClosing at this
  rw [this] at h
  cases h

/-- On the block that declares the table, the pattern built for its name
captures the name and the whole body. -/
theorem matchRe_filterRe_block (n body rest : Str) (hbody : body ≠ [])
    (hclose : closesWithin body.tail = false) :
    matchRe (filterRe n) accept
        (blockOpening ++ (n ++ ('`' :: (body ++ (blockClosing ++ rest))))) []
      = some ([(2, body), (1, n)], rest) := by
  cases body with
  | nil => exact absurd rfl hbody
  | cons b0 body' =>
    simp only [List.tail_cons] at hclose
    have htake : (b0 :: body' ++ (blockClosing ++ rest)).take
        ((b0 :: body' ++ (blockClosing ++ rest)).length - (blockClosing ++ rest).length)
          = b0 :: body' := by
      have : (b0 :: body' ++ (blockClosing ++ rest)).length - (blockClosing ++ rest).length
          = (b0 :: body').length := by
        simp only [List.length_append, List.length_cons]; omega
      rw [this]; exact List.take_left' rfl
    have htaken : ∀ X : Str, (n ++ X).take ((n ++ X).length - X.length) = n := by
      intro X
      have : (n ++ X).length - X.length = n.length := by simp
      rw [this]; exact List.take_left' rfl
    unfold filterRe blockOpening
    rw [matchRe_cat_cons, matchRe_lit_append, matchRe_cat_cons, matchRe_group,
      matchRe_lit_append, htaken, matchRe_cat_cons, matchRe_char_cons, if_pos rfl,
      matchRe_cat_cons, matchRe_group, matchRe_plus, List.cons_append, matchRe_cls_cons,
      if_pos (show isAny b0 = true from rfl), matchRe_star]
    rw [starLoop_lazy_any _ _ (blockClosing ++ rest) ?_ body' _ (Nat.le_refl _) ?_]
    · rw [← List.cons_append, htake, matchRe_closing_lit]
    · rw [matchRe_closing_lit]; rfl
    · intro u1 u2 hu hu2
      beta_reduce
      apply matchRe_closing_lit_none
      subst hu
      exact closesAt_append u2 _ hu2 (closesAt_of_closesWithin u1 u2 hclose)

theorem filterRe_ncap (n : Str) : (filterRe n).ncap = 2 := by
  have h : ∀ s : Str, (Re.lit s).ncap = 0 := by
    intro s
    induction s with
    | nil => rfl
    | cons x s ih =>
      show max 0 (Re.lit s).ncap = 0
      rw [ih]; rfl
  simp only [filterRe, Re.cat, List.foldr, Re.ncap, Re.plus, h]
  rfl

theorem matchAt_filterRe_block (n body rest : Str) (hbody : body ≠ [])
    (hclose : closesWithin body.tail = false) :
    matchAt (filterRe n) ((blockOpening ++ (n ++ ('`' :: (body ++ blockClosing)))) ++ rest)
      = some ([blockOpening ++ (n ++ ('`' :: (body ++ blockClosing))), n, body],
          (blockOpening ++ (n ++ ('`' :: (body ++ blockClosing)))).length) := by
  have hassoc : (blockOpening ++ (n ++ ('`' :: (body ++ blockClosing)))) ++ rest
      = blockOpening ++ (n ++ ('`' :: (body ++ (blockClosing ++ rest)))) := by
    simp [List.append_assoc]
  unfold matchAt
  rw [hassoc, matchRe_filterRe_block n body rest hbody hclose, ← hassoc]
  have hlen : ((blockOpening ++ (n ++ ('`' :: (body ++ blockClosing)))) ++ rest).length
      - rest.length = (blockOpening ++ (n ++ ('`' :: (body ++ blockClosing)))).length := by
    simp only [List.length_append, List.length_cons]; omega
  simp only [hlen, List.take_left', filterRe_ncap]
  rfl

theorem prefix_append_cases {a x z : Str} (h : a <+: x ++ z) :
    a <+: x ∨ ∃ t, a = x ++ t ∧ t <+: z := by
  induction x generalizing a with
  | nil => exact Or.inr ⟨a, rfl, h⟩
  | cons y x ih =>
    cases a with
    | nil => exact Or.inl List.nil_prefix
    | cons b a =>
      simp only [List.cons_append, List.cons_prefix_cons] at h
      obtain ⟨hb, ha⟩ := h
      subst hb
      rcases ih ha with h' | ⟨t, ht, htz⟩
      · exact Or.inl ((List.prefix_cons_inj b).2 h')
      · exact Or.inr ⟨t, by rw [ht]; rfl, htz⟩

/-- Where the opening phrase does not begin a text, it does not begin the
text followed by a block either: the phrase does not overlap itself. -/
theorem not_opening_append (v rest : Str) (hv : v ≠ []) (hat : opensAt v = false)
    (hrest : rest = [] ∨ blockOpening <+: rest) : ¬ blockOpening <+: v ++ rest := by
  intro hp
  have hnp : ¬ blockOpening <+: v := by
    intro h
    rw [← List.isPrefixOf_iff_prefix] at h
    unfold opensAt at hat
    rw [h] at hat
    cases hat
  rcases prefix_append_cases hp with h | ⟨t, ht, htr⟩
  · exact hnp h
  · have htne : t ≠ [] := by
      intro e
      subst e
      rw [List.append_nil] at ht
      exact hnp (ht ▸ List.prefix_refl _)
    have hth : t <+: blockOpening := by
      rcases hrest with hr | hr
      · subst hr
        exact absurd (List.prefix_nil.1 htr) htne
      · rcases List.prefix_or_prefix_of_prefix htr hr with h | h
        · exact h
        · have h1 := h.length_le
          have h2 := congrArg List.length ht
          simp only [List.length_append] at h2
          have h3 : 0 < v.length := List.length_pos.2 hv
          omega
    cases t with
    | nil => exact htne rfl
    | cons x t =>
      cases v with
      | nil => exact hv rfl
      | cons y v =>
        have hx : x = 'c' := by
          have : x :: t <+: 'c' :: blockOpening.tail := hth
          exact (List.cons_prefix_cons.1 this).1
        subst hx
        have hmem : 'c' ∈ blockOpening.tail := by
          rw [ht]
          simp
        revert hmem
        decide

theorem opensWithin_of_not_mem : ∀ (s : Str), '`' ∉ s → opensWithin s = false := by
  intro s
  induction s with
  | nil => intro _; rfl
  | cons x xs ih =>
    intro h
    have hat : opensAt (x :: xs) = false := by
      cases hb : opensAt (x :: xs) with
      | false => rfl
      | true =>
        unfold opensAt at hb
        rw [List.isPrefixOf_iff_prefix] at hb
        exact absurd (hb.subset (by decide : '`' ∈ blockOpening)) h
    simp only [opensWithin, hat, ih fun m => h (List.mem_cons_of_mem _ m), Bool.or_self]

theorem opensWithin_opening_tail (s : Str) :
    opensWithin (blockOpening.tail ++ s) = opensWithin s := by
  simp [blockOpening, opensWithin, opensAt, List.isPrefixOf]

theorem opensWithin_append_left : ∀ (a b : Str), opensWithin (a ++ b) = false →
    opensWithin b = false := by
  intro a
  induction a with
  | nil => intro b h; exact h
  | cons x a ih =>
    intro b h
    simp only [List.cons_append, opensWithin, Bool.or_eq_false_iff] at h
    exact ih b h.2

/-! ### The leftmost match -/

theorem findStringSubmatch_match {re : Re} {s : Str} {m : List Str} {k : Nat}
    (h : matchAt re s = some (m, k)) : findStringSubmatch re s = m := by
  cases s with
  | nil => simp only [findStringSubmatch, h]
  | cons x xs => simp only [findStringSubmatch, h]

theorem findStringSubmatch_no_match {re : Re} {x : Char} {xs : Str}
    (h : matchAt re (x :: xs) = none) :
    findStringSubmatch re (x :: xs) = findStringSubmatch re xs := by
  simp only [findStringSubmatch, h]

/-- The lookup passes over a text in which the opening phrase does not occur. -/
theorem findStringSubmatch_filterRe_skip (n : Str) : ∀ (y rest : Str),
    opensWithin y = false → (rest = [] ∨ blockOpening <+: rest) →
    findStringSubmatch (filterRe n) (y ++ rest) = findStringSubmatch (filterRe n) rest := by
  intro y
  induction y with
  | nil => intro rest _ _; rfl
  | cons x y ih =>
    intro rest hy hrest
    simp only [opensWithin, Bool.or_eq_false_iff] at hy
    have hno : matchAt (filterRe n) (x :: (y ++ rest)) = none :=
      matchAt_filterRe_no_opening n _ (not_opening_append (x :: y) rest (by simp) hy.1 hrest)
    rw [List.cons_append, findStringSubmatch_no_match hno]
    exact ih rest hy.2 hrest

/-! ### Sources in which the opening phrase only begins the blocks -/

/-- The lower-cased text of well-formed blocks is empty or begins with the
opening phrase. -/
theorem blocks_opening (U : Library) (bs : List (TableBlock × Str))
    (h : ∀ bg ∈ bs, bg.1.WellFormed U) :
    bytesToLower U (bs.map fun bg => bg.1.text ++ bg.2).flatten = []
      ∨ blockOpening <+: bytesToLower U (bs.map fun bg => bg.1.text ++ bg.2).flatten := by
  cases bs with
  | nil => exact Or.inl rfl
  | cons bg bs =>
    obtain ⟨b, g⟩ := bg
    right
    rw [bytesToLower_blocks_cons U b g bs (h (b, g) (List.mem_cons_self _ _)),
      List.append_assoc]
    exact List.prefix_append _ _

/-- The opening phrase does not occur in the text that follows a block when it
does not occur in the block after its opening and that text. -/
theorem opensWithin_after (U : Library) (b : TableBlock) (g : Str)
    (h : opensWithin (bytesToLower U (b.rest g)) = false) :
    opensWithin (bytesToLower U g) = false := by
  unfold TableBlock.rest at h
  rw [bytesToLower_append] at h
  exact opensWithin_append_left _ _ h

/-- The scan passes over a text in which the opening phrase does not occur. -/
theorem findAllFrom_pattern1_quiet (rest : Str) (hrest : rest = [] ∨ blockOpening <+: rest) :
    ∀ (g : Str) (adj : Bool), opensWithin g = false → g ≠ [] →
      findAllFrom pattern1 (g ++ rest) 0 adj = findAllFrom pattern1 rest 0 false := by
  intro g
  induction g with
  | nil => intro _ _ h; exact absurd rfl h
  | cons x g ih =>
    intro adj hg _
    simp only [opensWithin, Bool.or_eq_false_iff] at hg
    rw [List.cons_append, findAllFrom_no_match pattern1 x (g ++ rest) adj
      (matchAt_pattern1_no_opening _
        (not_opening_append (x :: g) rest (by simp) hg.1 hrest))]
    cases g with
    | nil => rfl
    | cons y g => exact ih false hg.2 (by simp)

/-- The scan of the lower-cased text of well-formed blocks between which the
opening phrase does not occur: one match for each block. -/
theorem findAllFrom_pattern1_blocks (U : Library) : ∀ (bs : List (TableBlock × Str)),
    (∀ bg ∈ bs, bg.1.WellFormed U ∧ opensWithin (bytesToLower U bg.2) = false) →
    ∀ (g : Str) (adj : Bool), opensWithin g = false →
      findAllFrom pattern1
          (g ++ bytesToLower U (bs.map fun bg => bg.1.text ++ bg.2).flatten) 0 adj
        = bs.map fun bg => bg.1.submatch U := by
  intro bs
  induction bs with
  | nil =>
    intro _ g adj hg
    have hnil : ∀ adj', findAllFrom pattern1 [] 0 adj' = [] := by
      intro adj'; simp [findAllFrom, matchAt_pattern1_nil]
    cases g with
    | nil => exact hnil adj
    | cons x g =>
      have := findAllFrom_pattern1_quiet [] (Or.inl rfl) (x :: g) adj hg (by simp)
      simp only [List.map_nil, List.flatten_nil, bytesToLower, List.append_nil] at this ⊢
      rw [this]; exact hnil false
  | cons bg bs ih =>
    obtain ⟨b, gap⟩ := bg
    intro h g adj hg
    have hb := h (b, gap) (List.mem_cons_self _ _)
    have hbs : ∀ bg ∈ bs, bg.1.WellFormed U ∧ opensWithin (bytesToLower U bg.2) = false :=
      fun bg hbg => h bg (List.mem_cons_of_mem _ hbg)
    have hne : blockOpening
        ++ (bytesToLower U b.name ++ ('`' :: (bytesToLower U b.body ++ blockClosing))) ≠ [] := by
      simp [blockOpening]
    have hbody : bytesToLower U b.body ≠ [] := by simpa [bytesToLower] using hb.1.2.2.1
    have hhead : ∀ adj', findAllFrom pattern1
        (bytesToLower U (((b, gap) :: bs).map fun bg => bg.1.text ++ bg.2).flatten) 0 adj'
          = ((b, gap) :: bs).map fun bg => bg.1.submatch U := by
      intro adj'
      rw [bytesToLower_blocks_cons U b gap bs hb.1,
        findAllFrom_match pattern1 _ _ (b.submatch U) adj' hne
          (matchAt_pattern1_block _ _ _ (isBareword_bytesToLower U hb.1.2.1) hbody
            hb.1.2.2.2.1),
        ih hbs (bytesToLower U gap) true hb.2]
      rfl
    cases g with
    | nil => exact hhead adj
    | cons x g =>
      rw [findAllFrom_pattern1_quiet _ (blocks_opening U _ fun bg hbg => (h bg hbg).1)
        (x :: g) adj hg (by simp)]
      exact hhead false

/-- The tables `parseSQL` returns, without filter, for a source text made of
well-formed blocks between which the opening phrase does not occur. -/
theorem parseSQL_scan_blocks (U : Library) (lead : Str) (blocks : List (TableBlock × Str))
    (hlead : opensWithin (bytesToLower U lead) = false)
    (hblocks : ∀ bg ∈ blocks, bg.1.WellFormed U ∧ opensWithin (bytesToLower U bg.2) = false) :
    parseSQL U (sourceText lead blocks) []
      = .ok (blocks.map fun bg =>
          tableOf U (bytesToLower U bg.1.name) (bytesToLower U bg.1.body)) := by
  unfold parseSQL sourceText findAllStringSubmatch
  simp only [if_true, bytesToLower_append]
  rw [findAllFrom_pattern1_blocks U blocks hblocks _ false hlead, tablesLoop_blocks]
  rfl

/-- The lookup of a table name in the lower-cased text of the blocks: the match
on the first block that declares the table. -/
theorem findStringSubmatch_filterRe_blocks (U : Library) (n : Str) (hn : IsBareword n) :
    ∀ (blocks : List (TableBlock × Str)),
    (∀ bg ∈ blocks, bg.1.WellFormed U
      ∧ opensWithin (bytesToLower U (bg.1.rest bg.2)) = false) →
    findStringSubmatch (filterRe n)
        (bytesToLower U (blocks.map fun bg => bg.1.text ++ bg.2).flatten)
      = match blocks.find? (fun bg => decide (bytesToLower U bg.1.name = n)) with
        | some bg => bg.1.submatch U
        | none => [] := by
  intro blocks
  induction blocks with
  | nil =>
    intro _
    have : matchAt (filterRe n) [] = none :=
      matchAt_filterRe_no_opening n [] (by decide)
    simp [bytesToLower, findStringSubmatch, this]
  | cons bg bs ih =>
    obtain ⟨b, gap⟩ := bg
    intro h
    obtain ⟨hwf, hopen⟩ := h (b, gap) (List.mem_cons_self _ _)
    have hbs : ∀ bg ∈ bs, bg.1.WellFormed U
        ∧ opensWithin (bytesToLower U (bg.1.rest bg.2)) = false :=
      fun bg hbg => h bg (List.mem_cons_of_mem _ hbg)
    have hbody : bytesToLower U b.body ≠ [] := by simpa [bytesToLower] using hwf.2.2.1
    rw [bytesToLower_blocks_cons U b gap bs hwf]
    by_cases hname : bytesToLower U b.name = n
    · rw [List.find?_cons_of_pos _ (by simpa using hname)]
      rw [hname]
      rw [findStringSubmatch_match
        (matchAt_filterRe_block n (bytesToLower U b.body) _ hbody hwf.2.2.2.1)]
      simp only [TableBlock.submatch, hname]
    · rw [List.find?_cons_of_neg _ (by simpa using hname), ← ih hbs]
      have hrest : bytesToLower U (b.rest gap)
          = bytesToLower U b.name ++ ('`' :: (bytesToLower U b.body ++ blockClosing))
            ++ bytesToLower U gap := by
        simp only [TableBlock.rest, bytesToLower_append, bytesToLower_backtick, hwf.2.2.2.2,
          List.append_assoc, List.cons_append]
      have hsplit : (blockOpening
            ++ (bytesToLower U b.name ++ ('`' :: (bytesToLower U b.body ++ blockClosing))))
          ++ (bytesToLower U gap
            ++ bytesToLower U (bs.map fun bg => bg.1.text ++ bg.2).flatten)
          = 'c' :: ((blockOpening.tail ++ bytesToLower U (b.rest gap))
            ++ bytesToLower U (bs.map fun bg => bg.1.text ++ bg.2).flatten) := by
        rw [hrest]
        simp [blockOpening, List.append_assoc]
      have hno : matchAt (filterRe n)
          ('c' :: ((blockOpening.tail ++ bytesToLower U (b.rest gap))
            ++ bytesToLower U (bs.map fun bg => bg.1.text ++ bg.2).flatten)) = none := by
        rw [← hsplit, List.append_assoc, List.append_assoc]
        simp only [List.cons_append]
        exact matchAt_filterRe_other n _ _ hn (isBareword_bytesToLower U hwf.2.1) hname
      rw [hsplit, findStringSubmatch_no_match hno]
      exact findStringSubmatch_filterRe_skip n _ _
        (by rw [opensWithin_opening_tail]; exact hopen)
        (blocks_opening U bs fun bg hbg => (hbs bg hbg).1)

/-- With the name of a block as filter, `parseSQL` returns the table of the
first block that declares this name. -/
theorem parseSQL_filter_block (U : Library) (lead : Str) (blocks : List (TableBlock × Str))
    (n : Str) (bg : TableBlock × Str) (hlead : opensWithin (bytesToLower U lead) = false)
    (hblocks : ∀ bg ∈ blocks, bg.1.WellFormed U
      ∧ opensWithin (bytesToLower U (bg.1.rest bg.2)) = false)
    (hfind : blocks.find? (fun bg => decide (bytesToLower U bg.1.name = n)) = some bg) :
    parseSQL U (sourceText lead blocks) n
      = .ok [tableOf U (bytesToLower U bg.1.name) (bytesToLower U bg.1.body)] := by
  have hmem := List.mem_of_find?_eq_some hfind
  have hname : bytesToLower U bg.1.name = n := by
    simpa using List.find?_some hfind
  have hn : IsBareword n := hname ▸ isBareword_bytesToLower U (hblocks bg hmem).1.2.1
  have hne : ¬ n = [] := hn.1
  have hfound := findStringSubmatch_filterRe_blocks U n hn blocks hblocks
  rw [hfind] at hfound
  have hskip := findStringSubmatch_filterRe_skip n (bytesToLower U lead)
    (bytesToLower U (blocks.map fun bg => bg.1.text ++ bg.2).flatten) hlead
    (blocks_opening U blocks fun bg hbg => (hblocks bg hbg).1)
  have hp : parseTable U (bg.1.submatch U)
      = .ok (tableOf U (bytesToLower U bg.1.name) (bytesToLower U bg.1.body)) :=
    parseTable_submatch U _ _ _
  simp only [parseSQL, sourceText, hne, if_false, pattern3_bareword U hn,
    Regexp.findStringSubmatch, bytesToLower_append, hskip, hfound, hp]

/-- Where the opening phrase only begins the blocks and every block is closed
with one blank before `engine`, the lookup of a name returns the first table
of that name that the scan returns. -/
theorem parseSQL_filter_first (U : Library) (lead : Str)
    (blocks : List (TableBlock × Str)) (n : Str) (tables : List Table) (T : Table)
    (hlead : opensWithin (bytesToLower U lead) = false)
    (hblocks : ∀ bg ∈ blocks, bg.1.WellFormed U
      ∧ opensWithin (bytesToLower U (bg.1.rest bg.2)) = false)
    (hscan : parseSQL U (sourceText lead blocks) [] = .ok tables)
    (hT : tables.find? (fun t => decide (t.RawName = n)) = some T) :
    parseSQL U (sourceText lead blocks) n = .ok [T] := by
  rw [parseSQL_scan_blocks U lead blocks hlead
    fun bg hbg => ⟨(hblocks bg hbg).1, opensWithin_after U _ _ (hblocks bg hbg).2⟩] at hscan
  simp only [Except.ok.injEq] at hscan
  subst hscan
  rw [List.find?_map] at hT
  cases hfind : blocks.find? ((fun t => decide (t.RawName = n)) ∘ fun bg =>
      tableOf U (bytesToLower U bg.1.name) (bytesToLower U bg.1.body)) with
  | none => rw [hfind] at hT; cases hT
  | some bg =>
    rw [hfind] at hT
    simp only [Option.map_some', Option.some.injEq] at hT
    subst hT
    exact parseSQL_filter_block U lead blocks n bg hlead hblocks hfind

/-! ## The claims -/

/-- C1: for each integer SQL type `columnTypeToGo` returns the fixed signed Go
type when `unsigned` is false and that type prefixed with `u` when it is true:
`int` and `mediumint` give `int32` / `uint32`, `tinyint` gives `int8` /
`uint8`, `smallint` gives `int16` / `uint16`, `bigint` gives `int64` /
`uint64`. -/
theorem columnTypeToGo_integer_family :
    columnTypeToGo "int".toList false = "int32".toList
    ∧ columnTypeToGo "int".toList true = "uint32".toList
    ∧ columnTypeToGo "mediumint".toList false = "int32".toList
    ∧ columnTypeToGo "mediumint".toList true = "uint32".toList
    ∧ columnTypeToGo "tinyint".toList false = "int8".toList
    ∧ columnTypeToGo "tinyint".toList true = "uint8".toList
    ∧ columnTypeToGo "smallint".toList false = "int16".toList
    ∧ columnTypeToGo "smallint".toList true = "uint16".toList
    ∧ columnTypeToGo "bigint".toList false = "int64".toList
    ∧ columnTypeToGo "bigint".toList true = "uint64".toList := by
  refine ⟨?_, ?_, ?_, ?_, ?_, ?_, ?_, ?_, ?_, ?_⟩ <;> decide

/-- C2: the unsigned flag has no effect on the non-integer families: for
`bool`, `float`, `double`, the six text types and `datetime`, `columnTypeToGo`
returns the same value for both values of the flag, namely `bool`, `float32`,
`float64`, `string` and `time.Time`. -/
theorem columnTypeToGo_unsigned_ignored (unsigned : Bool) :
    columnTypeToGo "bool".toList unsigned = "bool".toList
    ∧ columnTypeToGo "float".toList unsigned = "float32".toList
    ∧ columnTypeToGo "double".toList unsigned = "float64".toList
    ∧ columnTypeToGo "varchar".toList unsigned = "string".toList
    ∧ columnTypeToGo "char".toList unsigned = "string".toList
    ∧ columnTypeToGo "text".toList unsigned = "string".toList
    ∧ columnTypeToGo "tinytext".toList unsigned = "string".toList
    ∧ columnTypeToGo "mediumtext".toList unsigned = "string".toList
    ∧ columnTypeToGo "longtext".toList unsigned = "string".toList
    ∧ columnTypeToGo "datetime".toList unsigned = "time.Time".toList := by
  cases unsigned <;> refine ⟨?_, ?_, ?_, ?_, ?_, ?_, ?_, ?_, ?_, ?_⟩ <;> decide

/-- C3: for every string `s`, `camelCase s` is the concatenation, with no
separator, of `title` applied to each segment of `s` split on the underscore;
in particular `camelCase "" = ""`, `camelCase` of a string without underscore
is `title` of that string, `camelCase "name" = "Name"` and
`camelCase "user_id" = "UserID"`. -/
theorem camelCase_eq_join_title (U : Library) :
    (∀ s : Str, camelCase U s = ((stringsSplit s '_').map (title U)).flatten)
    ∧ camelCase U [] = []
    ∧ (∀ s : Str, '_' ∉ s → camelCase U s = title U s)
    ∧ camelCase U "name".toList = "Name".toList
    ∧ camelCase U "user_id".toList = "UserID".toList := by
  have main := camelCase_eq_flatten U
  refine ⟨main, by simp [camelCase], ?_, ?_, ?_⟩
  · intro s hs
    rw [main s, stringsSplit_of_not_mem '_' s hs]; simp
  · rw [camelCase_ascii U .ascii (by decide)]; decide
  · rw [camelCase_ascii U .ascii (by decide)]; decide

/-- C3, at a concrete string without underscore. -/
theorem camelCase_eq_join_title_witness :
    '_' ∉ "mysql".toList
    ∧ camelCase .ascii "mysql".toList = title .ascii "mysql".toList :=
  ⟨by decide, (camelCase_eq_join_title .ascii).2.2.1 "mysql".toList (by decide)⟩

/-- C4: once the package is initialised, `title` returns the value of the
override dictionary verbatim for every key: each of the 14 acronyms maps to
its upper-cased form and the four explicit overrides are kept by `init`. -/
theorem title_override_dictionary (U : Library) :
    (∀ k v : Str, mapGet (transformer U) k = some v → title U k = v)
    ∧ (∀ k ∈ upperWords, title U k = stringsToUpper U k)
    ∧ title U "id".toList = "ID".toList
    ∧ title U "dns".toList = "DNS".toList
    ∧ title U "uuid".toList = "UUID".toList
    ∧ title U "ldap".toList = "LDAP".toList
    ∧ title U "ad".toList = "AD".toList
    ∧ title U "dn".toList = "DN".toList
    ∧ title U "sha256".toList = "SHA256".toList
    ∧ title U "md5".toList = "MD5".toList
    ∧ title U "sso".toList = "SSO".toList
    ∧ title U "otp".toList = "OTP".toList
    ∧ title U "totp".toList = "TOTP".toList
    ∧ title U "os".toList = "OS".toList
    ∧ title U "sdk".toList = "SDK".toList
    ∧ title U "ipa".toList = "IPA".toList
    ∧ title U "ips".toList = "IPs".toList
    ∧ title U "mysql".toList = "MySQL".toList
    ∧ title U "sqlite".toList = "SQLite".toList
    ∧ title U "userid".toList = "UserID".toList := by
  refine ⟨?_, ?_, ?_⟩
  · intro k v h
    simp [title, h]
  · intro k hk
    have hascii : ∀ w ∈ upperWords, IsASCII w := by decide
    have hval : ∀ w ∈ upperWords, title .ascii w = stringsToUpper .ascii w := by decide
    rw [title_ascii U .ascii (hascii k hk), stringsToUpper_ascii U .ascii (hascii k hk)]
    exact hval k hk
  · have key : ∀ s t : Str, IsASCII s → title .ascii s = t → title U s = t :=
      fun s t hs ht => (title_ascii U .ascii hs).trans ht
    refine ⟨?_, ?_, ?_, ?_, ?_, ?_, ?_, ?_, ?_, ?_, ?_, ?_, ?_, ?_, ?_, ?_, ?_, ?_⟩ <;>
      exact key _ _ (by decide) (by decide)

/-- C5: for every table body made of column declarations of the form
backtick-quoted name, whitespace, bareword type and, optionally, whitespace and
a bareword modifier, separated by commas, `parseTable` returns exactly one
column per declaration, in declaration order, with `RawName` the name,
`RawType` the type, and `Unsigned` true if and only if the modifier is present
and equals `unsigned`. -/
theorem parseTable_column_declarations (U : Library) (whole name : Str)
    (decls : List ColumnDecl) (h : ∀ d ∈ decls, d.WellFormed) :
    parseTable U [whole, name, stringsJoin (decls.map ColumnDecl.text) ",".toList]
        = .ok { RawName := name, Name := camelCase U name,
                Columns := decls.map fun d => newColumn U d.name d.sqlType d.unsigned }
    ∧ (decls.map fun d => newColumn U d.name d.sqlType d.unsigned).map
          (fun c => (c.RawName, c.RawType, c.Unsigned))
        = decls.map (fun d => (d.name, d.sqlType, d.unsigned))
    ∧ ∀ d : ColumnDecl,
        d.unsigned = true ↔ ∃ ws, d.modifier = some (ws, "unsigned".toList) := by
  refine ⟨?_, ?_, ?_⟩
  · have h1 : ∀ body : Str, index [whole, name, body] 1 = .ok name := fun _ => rfl
    have h2 : ∀ body : Str, index [whole, name, body] 2 = .ok body := fun _ => rfl
    simp only [parseTable, h1, h2, findAllStringSubmatch,
      findAllFrom_pattern2_body decls false h, columnsLoop_submatch]
    simp [newTable]
  · simp [newColumn]
  · intro d
    unfold ColumnDecl.unsigned
    cases hm : d.modifier with
    | none => simp
    | some wm =>
      obtain ⟨ws, m⟩ := wm
      simp

set_option maxRecDepth 100000 in
/-- C5, on the body "\x60id\x60 bigint unsigned,\x60user_id\x60  int,\x60age\x60 int zerofill". -/
theorem parseTable_column_declarations_witness :
    (∀ d ∈ [(⟨"id".toList, " ".toList, "bigint".toList,
                some (" ".toList, "unsigned".toList)⟩ : ColumnDecl),
            ⟨"user_id".toList, "  ".toList, "int".toList, none⟩,
            ⟨"age".toList, " ".toList, "int".toList, some (" ".toList, "zerofill".toList)⟩],
        d.WellFormed)
    ∧ parseTable .ascii ["".toList, "users".toList,
          "`id` bigint unsigned,`user_id`  int,`age` int zerofill".toList]
        = .ok { RawName := "users".toList, Name := "Users".toList,
                Columns := [
                  { RawName := "id".toList, Name := "ID".toList, RawType := "bigint".toList,
                    Type' := "uint64".toList, Unsigned := true },
                  { RawName := "user_id".toList, Name := "UserID".toList,
                    RawType := "int".toList, Type' := "int32".toList, Unsigned := false },
                  { RawName := "age".toList, Name := "Age".toList, RawType := "int".toList,
                    Type' := "int32".toList, Unsigned := false }] } :=
  ⟨by decide,
    (parseTable_column_declarations .ascii "".toList "users".toList
      [⟨"id".toList, " ".toList, "bigint".toList, some (" ".toList, "unsigned".toList)⟩,
        ⟨"user_id".toList, "  ".toList, "int".toList, none⟩,
        ⟨"age".toList, " ".toList, "int".toList, some (" ".toList, "zerofill".toList)⟩]
      (by decide)).1⟩

/-- C6: for every source text made of well-formed table blocks, each beginning
with the phrase `create table if not exists` and a backtick-quoted
identifier, in any letter case, and ending with `) engine`, `parseSQL` with an
empty table-name filter returns exactly one table per block, in source order,
whose `RawName` is the lower-cased text between the backticks; and a source
text in which no table block opens yields the empty sequence.  A block is
well-formed in the sense of `TableBlock.WellFormed`; the text before the
first block and the text after each block hold no backtick. -/
theorem parseSQL_table_blocks (U : Library) (lead : Str) (blocks : List (TableBlock × Str))
    (hlead : NoBacktick U lead)
    (hblocks : ∀ bg ∈ blocks, bg.1.WellFormed U ∧ NoBacktick U bg.2) :
    parseSQL U (sourceText lead blocks) []
        = .ok (blocks.map fun bg =>
            tableOf U (bytesToLower U bg.1.name) (bytesToLower U bg.1.body))
    ∧ (blocks.map fun bg =>
          tableOf U (bytesToLower U bg.1.name) (bytesToLower U bg.1.body)).map (fun t => t.RawName)
        = blocks.map (fun bg => bytesToLower U bg.1.name)
    ∧ ∀ sql : Str, ¬ blockOpening <:+: bytesToLower U sql → parseSQL U sql [] = .ok [] := by
  refine ⟨parseSQL_sourceText U lead blocks hlead hblocks, by simp [tableOf], ?_⟩
  intro sql hsql
  unfold parseSQL findAllStringSubmatch
  simp only [if_true]
  rw [findAllFrom_pattern1_no_opening _ false hsql]
  rfl

set_option maxRecDepth 100000 in
/-- C6, on a source text of two blocks in mixed letter case. -/
theorem parseSQL_table_blocks_witness :
    NoBacktick .ascii "-- schema\n".toList
    ∧ (∀ bg ∈ [((⟨"CREATE TABLE IF NOT EXISTS `".toList, "Users".toList,
                  " (`id` bigint unsigned, `name` varchar(255)".toList,
                  ") ENGINE".toList⟩ : TableBlock), "=InnoDB;\n".toList),
               (⟨"create table if not exists `".toList, "order_items".toList,
                  " (`id` int".toList, ") engine".toList⟩, "=InnoDB;".toList)],
        bg.1.WellFormed .ascii ∧ NoBacktick .ascii bg.2)
    ∧ parseSQL .ascii ("-- schema\n"
          ++ "CREATE TABLE IF NOT EXISTS `Users` (`id` bigint unsigned, `name` varchar(255)) "
          ++ "ENGINE=InnoDB;\n"
          ++ "create table if not exists `order_items` (`id` int) engine=InnoDB;").toList []
        = .ok [
            { RawName := "users".toList, Name := "Users".toList,
              Columns := [
                { RawName := "id".toList, Name := "ID".toList, RawType := "bigint".toList,
                  Type' := "uint64".toList, Unsigned := true },
                { RawName := "name".toList, Name := "Name".toList,
                  RawType := "varchar".toList, Type' := "string".toList,
                  Unsigned := false }] },
            { RawName := "order_items".toList, Name := "OrderItems".toList,
              Columns := [
                { RawName := "id".toList, Name := "ID".toList, RawType := "int".toList,
                  Type' := "int32".toList, Unsigned := false }] }] :=
  ⟨by decide, by decide,
    (parseSQL_table_blocks .ascii "-- schema\n".toList
      [(⟨"CREATE TABLE IF NOT EXISTS `".toList, "Users".toList,
          " (`id` bigint unsigned, `name` varchar(255)".toList, ") ENGINE".toList⟩,
          "=InnoDB;\n".toList),
        (⟨"create table if not exists `".toList, "order_items".toList,
          " (`id` int".toList, ") engine".toList⟩, "=InnoDB;".toList)]
      (by decide) (by decide)).1⟩

set_option maxRecDepth 100000 in
/-- C7: applied with an empty table-name filter to the text
"CREATE TABLE IF NOT EXISTS \x60users\x60 (\x60id\x60 bigint unsigned,
\x60user_id\x60 int, \x60name\x60 varchar(255)) ENGINE=InnoDB;",
`parseSQL` returns exactly one table, with `RawName` "users" and `Name`
"Users", whose columns are, in this order, `ID` of type `uint64` (unsigned),
`UserID` of type `int32` and `Name` of type `string` (both not unsigned). -/
theorem parseSQL_users_example (U : Library) :
    parseSQL U ("CREATE TABLE IF NOT EXISTS `users` (`id` bigint unsigned, "
        ++ "`user_id` int, `name` varchar(255)) ENGINE=InnoDB;").toList []
      = .ok [{ RawName := "users".toList, Name := "Users".toList,
               Columns := [
                 { RawName := "id".toList, Name := "ID".toList, RawType := "bigint".toList,
                   Type' := "uint64".toList, Unsigned := true },
                 { RawName := "user_id".toList, Name := "UserID".toList,
                   RawType := "int".toList, Type' := "int32".toList, Unsigned := false },
                 { RawName := "name".toList, Name := "Name".toList,
                   RawType := "varchar".toList, Type' := "string".toList,
                   Unsigned := false }] }] := by
  rw [parseSQL_ascii U .ascii [] (by decide) (by decide) (by decide)]
  decide

/-- C8 (the code departs from the claim): with the filter "orders", which
names no table block of the source, `FindStringSubmatch` returns the nil slice
and `parseTable` panics on `match[1]`; there is no not-found outcome: whenever
the pattern built from a filter finds no match, the result is that panic. -/
theorem parseSQL_absent_table_panics (U : Library) :
    parseSQL U "CREATE TABLE IF NOT EXISTS `users` (`id` int) ENGINE=InnoDB;".toList
        "orders".toList
      = .error (.indexOutOfRange 1 0)
    ∧ ∀ (sql tableName : Str) (p : Regexp), tableName ≠ [] → pattern3 U tableName = .ok p →
        p.findStringSubmatch U (bytesToLower U sql) = [] →
        parseSQL U sql tableName = .error (.indexOutOfRange 1 0) := by
  refine ⟨?_, ?_⟩
  · rw [parseSQL_ascii U .ascii _ (by decide) (by decide) (by decide)]
    decide
  · intro sql tableName p hne hp hfind
    simp only [parseSQL, hne, if_false, hp, hfind]
    rfl

/-- C9 (the code departs from the claim): the source is lower-cased before
matching and the filter is not, so the filter "Users" misses the block that
declares the table \x60Users\x60 and `parseTable` panics on the nil match,
while the filter "users" finds the table. -/
theorem parseSQL_filter_case_sensitive (U : Library) :
    parseSQL U "CREATE TABLE IF NOT EXISTS `Users` (`id` int) ENGINE=InnoDB;".toList
        "Users".toList
      = .error (.indexOutOfRange 1 0)
    ∧ parseSQL U "CREATE TABLE IF NOT EXISTS `Users` (`id` int) ENGINE=InnoDB;".toList
        "users".toList
      = .ok [{ RawName := "users".toList, Name := "Users".toList,
               Columns := [{ RawName := "id".toList, Name := "ID".toList,
                             RawType := "int".toList, Type' := "int32".toList,
                             Unsigned := false }] }] := by
  rw [parseSQL_ascii U .ascii _ (by decide) (by decide) (by decide),
    parseSQL_ascii U .ascii _ (by decide) (by decide) (by decide)]
  decide

/-- C10, as stated, fails: the identifier "_" is not empty, is made of
characters the table pattern captures, and its `Name` is empty. -/
theorem newTable_underscore_name_empty :
    "_".toList ≠ [] ∧ ("_".toList.all isWord = true)
    ∧ ∀ U : Library, (newTable U "_".toList).Name = [] := by
  refine ⟨by decide, by decide, fun U => ?_⟩
  show camelCase U "_".toList = []
  rw [camelCase_ascii U .ascii (by decide)]; decide

/-- C10, amended: for every `rawName` with at least one rune other than the
underscore, and so for every such identifier the table pattern can capture,
the `Name` of `newTable rawName`, that is `camelCase rawName`, is not empty. -/
theorem newTable_name_ne_nil (U : Library) (rawName : Str)
    (h : ∃ r ∈ rawName, r ≠ '_') :
    (newTable U rawName).Name ≠ [] ∧ (newTable U rawName).Name = camelCase U rawName :=
  ⟨camelCase_ne_nil U h, rfl⟩

/-- C10, amended, at the table name "user_id". -/
theorem newTable_name_ne_nil_witness :
    (∃ r ∈ "user_id".toList, r ≠ '_')
    ∧ (newTable .ascii "user_id".toList).Name ≠ []
    ∧ (newTable .ascii "user_id".toList).Name = camelCase .ascii "user_id".toList :=
  ⟨by decide, newTable_name_ne_nil .ascii "user_id".toList (by decide)⟩

set_option maxRecDepth 100000 in
/-- C11 (the code departs from the claim): the `switch` of `columnTypeToGo`
spells one label of the binary family `TinyBlob`, so the lower-case keyword
`tinyblob` is not dispatched on: it gets the empty type, or `u` when unsigned,
and a parsed column declared `TINYBLOB` gets the empty `Type`.  The other five
lower-case keywords of the family, and the spelling `TinyBlob`, give
`[]byte` for either value of `unsigned`. -/
theorem columnTypeToGo_tinyblob (U : Library) :
    columnTypeToGo "tinyblob".toList false = []
    ∧ columnTypeToGo "tinyblob".toList true = "u".toList
    ∧ (∀ unsigned : Bool,
        columnTypeToGo "binary".toList unsigned = "[]byte".toList
        ∧ columnTypeToGo "varbinary".toList unsigned = "[]byte".toList
        ∧ columnTypeToGo "blob".toList unsigned = "[]byte".toList
        ∧ columnTypeToGo "mediumblob".toList unsigned = "[]byte".toList
        ∧ columnTypeToGo "longblob".toList unsigned = "[]byte".toList
        ∧ columnTypeToGo "TinyBlob".toList unsigned = "[]byte".toList)
    ∧ parseSQL U "CREATE TABLE IF NOT EXISTS `files` (`data` TINYBLOB) ENGINE=InnoDB;".toList []
        = .ok [{ RawName := "files".toList, Name := "Files".toList,
                 Columns := [{ RawName := "data".toList, Name := "Data".toList,
                               RawType := "tinyblob".toList, Type' := [],
                               Unsigned := false }] }] := by
  refine ⟨by decide, by decide, ?_, ?_⟩
  · intro unsigned
    cases unsigned <;> refine ⟨?_, ?_, ?_, ?_, ?_, ?_⟩ <;> decide
  · rw [parseSQL_ascii U .ascii [] (by decide) (by decide) (by decide)]
    decide

/-- C12: for every `rawType` that is not one of the keywords dispatched on by
`columnTypeToGo`, `columnTypeToGo rawType false` is the empty string and
`columnTypeToGo rawType true` is `u`. -/
theorem columnTypeToGo_unknown (rawType : Str) (h : rawType ∉ dispatchedKeywords) :
    columnTypeToGo rawType false = [] ∧ columnTypeToGo rawType true = "u".toList := by
  simp only [dispatchedKeywords, List.mem_cons, List.mem_singleton, List.mem_nil_iff, or_false,
    not_or] at h
  obtain ⟨h1, h2, h3, h4, h5, h6, h7, h8, h9, h10, h11, h12, h13, h14, h15, h16, h17, h18, h19,
    h20, h21⟩ := h
  constructor <;>
    simp only [columnTypeToGo, h1, h2, h3, h4, h5, h6, h7, h8, h9, h10, h11, h12, h13, h14, h15,
      h16, h17, h18, h19, h20, h21, or_self, if_false, if_true, Bool.false_eq_true,
      List.append_nil]

/-- C12, at the keyword `decimal`. -/
theorem columnTypeToGo_unknown_witness :
    "decimal".toList ∉ dispatchedKeywords
    ∧ columnTypeToGo "decimal".toList false = []
    ∧ columnTypeToGo "decimal".toList true = "u".toList :=
  ⟨by decide, columnTypeToGo_unknown "decimal".toList (by decide)⟩

set_option maxRecDepth 100000 in
/-- C13, as stated, fails: the word `my-table` is not a key of the override
dictionary and `title` gives `My-Table`, not `My-table`: `strings.Title`
detects word boundaries inside the word.  The word reaches `title` when it is
the table-name filter. -/
theorem title_word_boundary :
    (∀ U : Library, mapGet (transformer U) "my-table".toList = none)
    ∧ (∀ U : Library, title U "my-table".toList = "My-Table".toList)
    ∧ (∀ U : Library, firstUp U "my-table".toList = "My-table".toList)
    ∧ "My-Table".toList ≠ "My-table".toList
    ∧ (∀ U : Library,
        parseSQL U "CREATE TABLE IF NOT EXISTS `my-table` (`id` int) ENGINE=InnoDB;".toList
            "my-table".toList
          = .ok [{ RawName := "my-table".toList, Name := "My-Table".toList,
                   Columns := [{ RawName := "id".toList, Name := "ID".toList,
                                 RawType := "int".toList, Type' := "int32".toList,
                                 Unsigned := false }] }]) := by
  refine ⟨fun U => ?_, fun U => ?_, fun U => ?_, by decide, fun U => ?_⟩
  · rw [transformer_tables U .ascii]; decide
  · rw [title_ascii U .ascii (by decide)]; decide
  · show unicodeToTitle U 'm' :: "y-table".toList = "My-table".toList
    rw [unicodeToTitle_ascii U .ascii (by decide)]; decide
  · rw [parseSQL_ascii U .ascii _ (by decide) (by decide) (by decide)]; decide

/-- C13, amended: for every word that is not a key of the override dictionary
and holds no separator (no ASCII rune other than a letter, a digit or the
underscore, and no Unicode space), as is every segment of an identifier that
the patterns capture, `title word` is the word with its first rune in title
case and every other rune unchanged. -/
theorem title_first_letter_up (U : Library) (word : Str)
    (hkey : mapGet (transformer U) word = none)
    (hsep : ∀ r ∈ word, isSeparator r = false) :
    title U word = firstUp U word := by
  simp only [title, hkey]
  exact stringsTitle_no_separator U word hsep

/-- C13, amended, at the word `name`. -/
theorem title_first_letter_up_witness :
    mapGet (transformer .ascii) "name".toList = none
    ∧ (∀ r ∈ "name".toList, isSeparator r = false)
    ∧ title .ascii "name".toList = "Name".toList :=
  ⟨by decide, by decide, title_first_letter_up .ascii "name".toList (by decide) (by decide)⟩

/-- C14: every table returned by `parseSQL` has `Name = camelCase RawName`,
and every column in it has `Name = camelCase RawName` and
`Type = columnTypeToGo RawType Unsigned`; so two columns with equal `RawType`
and `Unsigned` have equal `Type`.  This holds for every source text, for every
filter, with or without metacharacters, and whatever the library finds. -/
theorem parseSQL_normalised (U : Library) (sql tableName : Str) (tables : List Table)
    (h : parseSQL U sql tableName = .ok tables) :
    (∀ t ∈ tables, t.Name = camelCase U t.RawName
      ∧ ∀ c ∈ t.Columns, c.Name = camelCase U c.RawName
          ∧ c.Type' = columnTypeToGo c.RawType c.Unsigned)
    ∧ ∀ t1 ∈ tables, ∀ t2 ∈ tables, ∀ c1 ∈ t1.Columns, ∀ c2 ∈ t2.Columns,
        c1.RawType = c2.RawType → c1.Unsigned = c2.Unsigned → c1.Type' = c2.Type' := by
  have hall := parseSQL_all_normalised U sql tableName tables h
  refine ⟨fun t ht => hall t ht, ?_⟩
  intro t1 ht1 t2 ht2 c1 hc1 c2 hc2 hty hun
  rw [((hall t1 ht1).2 c1 hc1).2, ((hall t2 ht2).2 c2 hc2).2, hty, hun]

set_option maxRecDepth 100000 in
/-- C14, on a source text with two tables and no filter; and on a block of
`users` with the filter `user.`, a pattern text that the library compiles and
matches on that block. -/
theorem parseSQL_normalised_witness :
    (∃ tables : List Table,
      parseSQL .ascii
          ("CREATE TABLE IF NOT EXISTS `users` (`id` bigint unsigned) ENGINE=InnoDB;"
            ++ "CREATE TABLE IF NOT EXISTS `posts` (`user_id` bigint unsigned) ENGINE=InnoDB;"
          ).toList [] = .ok tables
      ∧ tables.map (fun t => t.RawName) = ["users".toList, "posts".toList]
      ∧ ∀ t ∈ tables, t.Name = camelCase .ascii t.RawName
          ∧ ∀ c ∈ t.Columns, c.Name = camelCase .ascii c.RawName
              ∧ c.Type' = columnTypeToGo c.RawType c.Unsigned)
    ∧ ∃ tables : List Table,
      parseSQL
          (Library.withPattern (sprintfPattern3 "user.".toList)
            ["create table if not exists `users` (`id` bigint unsigned) engine".toList,
              "users".toList, " (`id` bigint unsigned".toList])
          "CREATE TABLE IF NOT EXISTS `users` (`id` bigint unsigned) ENGINE=InnoDB;".toList
          "user.".toList = .ok tables
      ∧ tables.map (fun t => t.RawName) = ["users".toList]
      ∧ ∀ t ∈ tables,
          t.Name = camelCase
            (Library.withPattern (sprintfPattern3 "user.".toList)
            ["create table if not exists `users` (`id` bigint unsigned) engine".toList,
              "users".toList, " (`id` bigint unsigned".toList]) t.RawName
          ∧ ∀ c ∈ t.Columns,
              c.Name = camelCase
                (Library.withPattern (sprintfPattern3 "user.".toList)
            ["create table if not exists `users` (`id` bigint unsigned) engine".toList,
              "users".toList, " (`id` bigint unsigned".toList]) c.RawName
              ∧ c.Type' = columnTypeToGo c.RawType c.Unsigned :=
  ⟨⟨[Table.mk "users".toList "Users".toList
        [Column.mk "id".toList "ID".toList "bigint".toList "uint64".toList true],
      Table.mk "posts".toList "Posts".toList
        [Column.mk "user_id".toList "UserID".toList "bigint".toList "uint64".toList true]],
      by decide, rfl,
      (parseSQL_normalised .ascii
        ("CREATE TABLE IF NOT EXISTS `users` (`id` bigint unsigned) ENGINE=InnoDB;"
          ++ "CREATE TABLE IF NOT EXISTS `posts` (`user_id` bigint unsigned) ENGINE=InnoDB;"
        ).toList [] _ (by decide)).1⟩,
    ⟨[Table.mk "users".toList "Users".toList
        [Column.mk "id".toList "ID".toList "bigint".toList "uint64".toList true]],
      by decide, rfl,
      (parseSQL_normalised
        (Library.withPattern (sprintfPattern3 "user.".toList)
            ["create table if not exists `users` (`id` bigint unsigned) engine".toList,
              "users".toList, " (`id` bigint unsigned".toList])
        "CREATE TABLE IF NOT EXISTS `users` (`id` bigint unsigned) ENGINE=InnoDB;".toList
        "user.".toList _ (by decide)).1⟩⟩

set_option maxRecDepth 100000 in
/-- C15 (the code departs from the claim): the pattern of the lookup ends with
`\) engine`, with exactly one blank, where the pattern of the scan ends with
`\)\s*engine`.  On a block closed by `)ENGINE` the scan returns the table
`users` and the lookup of `users` finds no match, so that `parseTable` panics;
with the blank, the lookup returns what the scan returns.  When a later block
is closed with one blank, the lookup of `a` runs on to that closing and returns
`a` with the columns of both blocks.  The two also part where the opening
phrase for `b` stands inside the block of `a`: the scan passes over it, the
lookup begins there.  On every source text made of well-formed blocks, each
closed with one blank, in which the opening phrase only begins the blocks, the
lookup of a name returns exactly the first table of that name that the scan
returns; a dump that drops each table before creating it is such a text. -/
theorem parseSQL_filter_terminator :
    (∀ U : Library,
      parseSQL U "CREATE TABLE IF NOT EXISTS `users` (`id` int)ENGINE=InnoDB;".toList []
        = .ok [{ RawName := "users".toList, Name := "Users".toList,
                 Columns := [{ RawName := "id".toList, Name := "ID".toList,
                               RawType := "int".toList, Type' := "int32".toList,
                               Unsigned := false }] }])
    ∧ (∀ U : Library,
      parseSQL U "CREATE TABLE IF NOT EXISTS `users` (`id` int)ENGINE=InnoDB;".toList
          "users".toList
        = .error (.indexOutOfRange 1 0))
    ∧ (∀ U : Library,
      parseSQL U "CREATE TABLE IF NOT EXISTS `users` (`id` int) ENGINE=InnoDB;".toList
          "users".toList
        = parseSQL U "CREATE TABLE IF NOT EXISTS `users` (`id` int) ENGINE=InnoDB;".toList [])
    ∧ (∀ U : Library,
      parseSQL U ("CREATE TABLE IF NOT EXISTS `a` (`x` int)ENGINE=InnoDB; "
          ++ "CREATE TABLE IF NOT EXISTS `b` (`y` int) ENGINE=InnoDB;").toList []
        = .ok [{ RawName := "a".toList, Name := "A".toList,
                 Columns := [{ RawName := "x".toList, Name := "X".toList,
                               RawType := "int".toList, Type' := "int32".toList,
                               Unsigned := false }] },
               { RawName := "b".toList, Name := "B".toList,
                 Columns := [{ RawName := "y".toList, Name := "Y".toList,
                               RawType := "int".toList, Type' := "int32".toList,
                               Unsigned := false }] }])
    ∧ (∀ U : Library,
      parseSQL U ("CREATE TABLE IF NOT EXISTS `a` (`x` int)ENGINE=InnoDB; "
          ++ "CREATE TABLE IF NOT EXISTS `b` (`y` int) ENGINE=InnoDB;").toList "a".toList
        = .ok [{ RawName := "a".toList, Name := "A".toList,
                 Columns := [
                   { RawName := "x".toList, Name := "X".toList, RawType := "int".toList,
                     Type' := "int32".toList, Unsigned := false },
                   { RawName := "y".toList, Name := "Y".toList, RawType := "int".toList,
                     Type' := "int32".toList, Unsigned := false }] }])
    ∧ (∀ U : Library,
      parseSQL U ("CREATE TABLE IF NOT EXISTS `a` (`x` int COMMENT 'see CREATE TABLE IF NOT "
          ++ "EXISTS `b` (`z` int) ENGINE') ENGINE=InnoDB; "
          ++ "CREATE TABLE IF NOT EXISTS `b` (`y` int) ENGINE=InnoDB;").toList []
        = .ok [{ RawName := "a".toList, Name := "A".toList,
                 Columns := [
                   { RawName := "x".toList, Name := "X".toList, RawType := "int".toList,
                     Type' := "int32".toList, Unsigned := false },
                   { RawName := "z".toList, Name := "Z".toList, RawType := "int".toList,
                     Type' := "int32".toList, Unsigned := false }] },
               { RawName := "b".toList, Name := "B".toList,
                 Columns := [{ RawName := "y".toList, Name := "Y".toList,
                               RawType := "int".toList, Type' := "int32".toList,
                               Unsigned := false }] }])
    ∧ (∀ U : Library,
      parseSQL U ("CREATE TABLE IF NOT EXISTS `a` (`x` int COMMENT 'see CREATE TABLE IF NOT "
          ++ "EXISTS `b` (`z` int) ENGINE') ENGINE=InnoDB; "
          ++ "CREATE TABLE IF NOT EXISTS `b` (`y` int) ENGINE=InnoDB;").toList "b".toList
        = .ok [{ RawName := "b".toList, Name := "B".toList,
                 Columns := [{ RawName := "z".toList, Name := "Z".toList,
                               RawType := "int".toList, Type' := "int32".toList,
                               Unsigned := false }] }])
    ∧ (∀ (U : Library) (lead : Str) (blocks : List (TableBlock × Str)) (n : Str)
        (tables : List Table) (T : Table),
        opensWithin (bytesToLower U lead) = false →
        (∀ bg ∈ blocks, bg.1.WellFormed U
          ∧ opensWithin (bytesToLower U (bg.1.rest bg.2)) = false) →
        parseSQL U (sourceText lead blocks) [] = .ok tables →
        tables.find? (fun t => decide (t.RawName = n)) = some T →
        parseSQL U (sourceText lead blocks) n = .ok [T])
    ∧ (opensWithin (bytesToLower .ascii "DROP TABLE IF EXISTS `Users`;\n".toList) = false
      ∧ (∀ bg ∈ [((⟨"CREATE TABLE IF NOT EXISTS `".toList, "Users".toList,
                    " (`id` bigint unsigned, `name` varchar(255)".toList,
                    ") ENGINE".toList⟩ : TableBlock),
                    "=InnoDB;\nDROP TABLE IF EXISTS `order_items`;\n".toList),
                 (⟨"create table if not exists `".toList, "order_items".toList,
                    " (`id` int".toList, ") engine".toList⟩, "=InnoDB;".toList)],
          bg.1.WellFormed .ascii
            ∧ opensWithin (bytesToLower .ascii (bg.1.rest bg.2)) = false)
      ∧ sourceText "DROP TABLE IF EXISTS `Users`;\n".toList
          [(⟨"CREATE TABLE IF NOT EXISTS `".toList, "Users".toList,
              " (`id` bigint unsigned, `name` varchar(255)".toList, ") ENGINE".toList⟩,
              "=InnoDB;\nDROP TABLE IF EXISTS `order_items`;\n".toList),
            (⟨"create table if not exists `".toList, "order_items".toList,
              " (`id` int".toList, ") engine".toList⟩, "=InnoDB;".toList)]
        = ("DROP TABLE IF EXISTS `Users`;\n"
            ++ "CREATE TABLE IF NOT EXISTS `Users` (`id` bigint unsigned, `name` varchar(255)) "
            ++ "ENGINE=InnoDB;\nDROP TABLE IF EXISTS `order_items`;\n"
            ++ "create table if not exists `order_items` (`id` int) engine=InnoDB;").toList
      ∧ ∀ U : Library,
        parseSQL U ("DROP TABLE IF EXISTS `Users`;\n"
            ++ "CREATE TABLE IF NOT EXISTS `Users` (`id` bigint unsigned, `name` varchar(255)) "
            ++ "ENGINE=InnoDB;\nDROP TABLE IF EXISTS `order_items`;\n"
            ++ "create table if not exists `order_items` (`id` int) engine=InnoDB;").toList
            "order_items".toList
          = .ok [Table.mk "order_items".toList "OrderItems".toList
                  [Column.mk "id".toList "ID".toList "int".toList "int32".toList false]]) := by
  refine ⟨fun U => ?_, fun U => ?_, fun U => ?_, fun U => ?_, fun U => ?_, fun U => ?_,
    fun U => ?_, ?_, by decide, by decide, by decide, fun U => ?_⟩
  · rw [parseSQL_ascii U .ascii _ (by decide) (by decide) (by decide)]; decide
  · rw [parseSQL_ascii U .ascii _ (by decide) (by decide) (by decide)]; decide
  · rw [parseSQL_ascii U .ascii _ (by decide) (by decide) (by decide),
      parseSQL_ascii U .ascii [] (by decide) (by decide) (by decide)]
    decide
  · rw [parseSQL_ascii U .ascii _ (by decide) (by decide) (by decide)]; decide
  · rw [parseSQL_ascii U .ascii _ (by decide) (by decide) (by decide)]; decide
  · rw [parseSQL_ascii U .ascii _ (by decide) (by decide) (by decide)]; decide
  · rw [parseSQL_ascii U .ascii _ (by decide) (by decide) (by decide)]; decide
  · intro U lead blocks n tables T hlead hblocks hscan hT
    exact parseSQL_filter_first U lead blocks n tables T hlead hblocks hscan hT
  · rw [parseSQL_ascii U .ascii _ (by decide) (by decide) (by decide)]; decide

/-- C16: a display width between the type and the modifier hides the
modifier: for a table body that holds the declaration
"\x60id\x60 int(10) unsigned", `parseTable` returns the column with `RawType`
`int`, `Unsigned` false and `Type` `int32`; the match of the column pattern
ends after `int`, because the optional modifier group can only match a
bareword that follows the type after optional whitespace. -/
theorem parseTable_display_width (U : Library) :
    parseTable U ["".toList, "t".toList, "`id` int(10) unsigned".toList]
        = .ok { RawName := "t".toList, Name := "T".toList,
                Columns := [{ RawName := "id".toList, Name := "ID".toList,
                              RawType := "int".toList, Type' := "int32".toList,
                              Unsigned := false }] }
    ∧ findAllStringSubmatch pattern2 "`id` int(10) unsigned".toList
        = [["`id` int".toList, "id".toList, "int".toList, []]]
    ∧ ∀ whole name lead tail : Str, '`' ∉ lead → '`' ∉ tail →
        parseTable U [whole, name, lead ++ "`id` int(10) unsigned".toList ++ tail]
          = .ok { RawName := name, Name := camelCase U name,
                  Columns := [{ RawName := "id".toList, Name := "ID".toList,
                                RawType := "int".toList, Type' := "int32".toList,
                                Unsigned := false }] } := by
  refine ⟨?_, by decide, ?_⟩
  · rw [parseTable_ascii U .ascii (by decide)]; decide
  · intro whole name lead tail hl ht
    rw [parseTable_submatch, tableOf, findAllStringSubmatch,
      findAllFrom_pattern2_display_width lead tail hl ht false]
    simp only [List.map_cons, List.map_nil, columnOf, List.getD_cons_succ, List.getD_cons_zero]
    rw [show decide (([] : Str) = "unsigned".toList) = false from by decide, newColumn_id_int]

set_option maxRecDepth 100000 in
/-- C16, inside the body of a table. -/
theorem parseTable_display_width_witness :
    '`' ∉ " (".toList ∧ '`' ∉ " NOT NULL".toList
    ∧ parseTable .ascii ["".toList, "users".toList,
          " (".toList ++ "`id` int(10) unsigned".toList ++ " NOT NULL".toList]
        = .ok { RawName := "users".toList, Name := camelCase .ascii "users".toList,
                Columns := [{ RawName := "id".toList, Name := "ID".toList,
                              RawType := "int".toList, Type' := "int32".toList,
                              Unsigned := false }] } :=
  ⟨by decide, by decide,
    (parseTable_display_width .ascii).2.2 "".toList "users".toList " (".toList
      " NOT NULL".toList (by decide) (by decide)⟩

set_option maxRecDepth 100000 in
/-- C17: `camelCase` is not injective on lower-case identifiers:
`camelCase "user_id" = camelCase "userid" = "UserID"` and
`camelCase "a_b" = camelCase "a__b"`, so a table with two distinct column
`RawName`s can be given two columns with the same `Name`. -/
theorem camelCase_not_injective (U : Library) :
    camelCase U "user_id".toList = "UserID".toList
    ∧ camelCase U "userid".toList = "UserID".toList
    ∧ "user_id".toList ≠ "userid".toList
    ∧ camelCase U "a_b".toList = camelCase U "a__b".toList
    ∧ "a_b".toList ≠ "a__b".toList
    ∧ parseTable U ["".toList, "t".toList, "`user_id` int,`userid` int".toList]
        = .ok { RawName := "t".toList, Name := "T".toList,
                Columns := [
                  { RawName := "user_id".toList, Name := "UserID".toList,
                    RawType := "int".toList, Type' := "int32".toList, Unsigned := false },
                  { RawName := "userid".toList, Name := "UserID".toList,
                    RawType := "int".toList, Type' := "int32".toList,
                    Unsigned := false }] } := by
  refine ⟨?_, ?_, by decide, ?_, by decide, ?_⟩
  · rw [camelCase_ascii U .ascii (by decide)]; decide
  · rw [camelCase_ascii U .ascii (by decide)]; decide
  · rw [camelCase_ascii U .ascii (by decide), camelCase_ascii U .ascii (by decide)]; decide
  · rw [parseTable_ascii U .ascii (by decide)]; decide

/-- C18: for every non-empty string `s` over lower-case ASCII letters, digits
and underscores that begins with a letter, `camelCase s` is non-empty, begins
with an upper-case ASCII letter and consists only of ASCII letters and digits
(it holds no underscore): it is an exported Go identifier. -/
theorem camelCase_exported_identifier (U : Library) (s : Str)
    (hs : ∀ r ∈ s, isLowerAZ r = true ∨ isDigit09 r = true ∨ r = '_')
    (hhead : ∃ c rest, s = c :: rest ∧ isLowerAZ c = true) :
    camelCase U s ≠ []
    ∧ (∃ c' t, camelCase U s = c' :: t ∧ isUpperAZ c' = true)
    ∧ (∀ r ∈ camelCase U s, isAlnum r = true)
    ∧ '_' ∉ camelCase U s := by
  obtain ⟨c, rest, rfl, hc⟩ := hhead
  obtain ⟨⟨c', t, ht, hu⟩, hal⟩ := camelCase_identifier U c rest hc hs
  refine ⟨by rw [ht]; simp, ⟨c', t, ht, hu⟩, hal, ?_⟩
  intro hm
  exact not_isAlnum_underscore (hal _ hm) rfl

/-- C18, at the identifier `sha256_of_user_id2`. -/
theorem camelCase_exported_identifier_witness :
    (∀ r ∈ "sha256_of_user_id2".toList, isLowerAZ r = true ∨ isDigit09 r = true ∨ r = '_')
    ∧ (∃ c rest, "sha256_of_user_id2".toList = c :: rest ∧ isLowerAZ c = true)
    ∧ camelCase .ascii "sha256_of_user_id2".toList ≠ []
    ∧ (∃ c' t, camelCase .ascii "sha256_of_user_id2".toList = c' :: t ∧ isUpperAZ c' = true)
    ∧ (∀ r ∈ camelCase .ascii "sha256_of_user_id2".toList, isAlnum r = true)
    ∧ '_' ∉ camelCase .ascii "sha256_of_user_id2".toList :=
  ⟨by decide, ⟨_, _, rfl, by decide⟩,
    camelCase_exported_identifier .ascii "sha256_of_user_id2".toList (by decide)
      ⟨_, _, rfl, by decide⟩⟩

set_option maxRecDepth 100000 in
/-- C19, as stated, fails: on the constraint clause
"constraint \x60fk_user\x60 foreign key (\x60user_id\x60) references
\x60users\x60 (\x60id\x60)" the column pattern matches
"\x60fk_user\x60 foreign key", and `parseTable` returns a column with
`RawName` `fk_user` and `RawType` `foreign`. -/
theorem parseTable_constraint_clause_column :
    (∀ U : Library,
      parseTable U ["".toList, "orders".toList,
          "constraint `fk_user` foreign key (`user_id`) references `users` (`id`)".toList]
        = .ok { RawName := "orders".toList, Name := "Orders".toList,
                Columns := [{ RawName := "fk_user".toList, Name := "FkUser".toList,
                              RawType := "foreign".toList, Type' := [],
                              Unsigned := false }] })
    ∧ findAllStringSubmatch pattern2
          "constraint `fk_user` foreign key (`user_id`) references `users` (`id`)".toList
        = [["`fk_user` foreign key".toList, "fk_user".toList, "foreign".toList,
            "key".toList]] := by
  refine ⟨fun U => ?_, by decide⟩
  rw [parseTable_ascii U .ascii (by decide)]; decide

set_option maxRecDepth 100000 in
/-- C19, amended: `parseTable` yields one column for every match of the column
pattern in the table body, column declaration or not; the constraint clause
contributes the column with `RawName` `fk_user` and `RawType` `foreign`, after
the columns of the declarations before it. -/
theorem parseTable_columns_of_matches (U : Library) :
    (∀ whole name body : Str,
      parseTable U [whole, name, body]
        = .ok { RawName := name, Name := camelCase U name,
                Columns := (findAllStringSubmatch pattern2 body).map (columnOf U) })
    ∧ parseTable U ["".toList, "orders".toList,
          ("`id` int,`user_id` int,"
            ++ "constraint `fk_user` foreign key (`user_id`) references `users` (`id`)").toList]
        = .ok { RawName := "orders".toList, Name := "Orders".toList,
                Columns := [
                  { RawName := "id".toList, Name := "ID".toList, RawType := "int".toList,
                    Type' := "int32".toList, Unsigned := false },
                  { RawName := "user_id".toList, Name := "UserID".toList,
                    RawType := "int".toList, Type' := "int32".toList, Unsigned := false },
                  { RawName := "fk_user".toList, Name := "FkUser".toList,
                    RawType := "foreign".toList, Type' := [], Unsigned := false }] } := by
  refine ⟨fun whole name body => parseTable_submatch U whole name body, ?_⟩
  rw [parseTable_ascii U .ascii (by decide)]; decide

/-- C20 (the code departs from the claim): `parseMode` takes the slice
`mode[:5]` before anything else, so an argument of fewer than five bytes, such
as `a=b`, makes it panic instead of giving the default list.  For an argument
of five bytes or more it returns a non-empty list: the flavours named after
`mode=`, in order and with unknown names dropped, when there is one, and the
default list otherwise. -/
theorem parseMode_short_argument_panics :
    parseMode "a=b".toList = .error (.sliceBoundsOutOfRange 5 3)
    ∧ (∀ mode : Str, byteLen mode < 5 →
        parseMode mode = .error (.sliceBoundsOutOfRange 5 (byteLen mode)))
    ∧ (∀ mode : Str, 5 ≤ byteLen mode → ∃ l, parseMode mode = .ok l ∧ l ≠ [])
    ∧ (∀ rest : Str,
        parseMode ("mode=".toList ++ rest)
          = .ok (if flavours (stringsSplit rest '+') = [] then defaultOutputTypes
                 else flavours (stringsSplit rest '+')))
    ∧ (∀ mode : Str, 5 ≤ byteLen mode → mode.take 5 ≠ "mode=".toList →
        parseMode mode = .ok defaultOutputTypes)
    ∧ parseMode "mode=sql+json+sb".toList = .ok [.sqlTable, .sqlTableWithJSON, .sbTable]
    ∧ parseMode "mode=sb+xml+sql".toList = .ok [.sbTable, .sqlTable]
    ∧ parseMode "mode=xml".toList = .ok [.sqlTableWithJSON, .sbTable] := by
  have hmode : ∀ rest : Str,
      parseMode ("mode=".toList ++ rest)
        = .ok (if flavours (stringsSplit rest '+') = [] then defaultOutputTypes
               else flavours (stringsSplit rest '+')) := by
    intro rest
    have hlen : ¬ byteLen ("mode=".toList ++ rest) < 5 := by
      rw [byteLen_append, show byteLen "mode=".toList = 5 from by decide]; omega
    have htake : ("mode=".toList ++ rest).take 5 = "mode=".toList := List.take_left' rfl
    have hdrop : ("mode=".toList ++ rest).drop 5 = rest := List.drop_left' rfl
    simp only [parseMode, hlen, if_false, htake, if_true, hdrop, modesLoop_eq, List.nil_append]
    by_cases hf : flavours (stringsSplit rest '+') = []
    · simp [hf]
    · have : (flavours (stringsSplit rest '+')).length > 0 :=
        List.length_pos.2 hf
      simp [hf, this]
  refine ⟨by decide, ?_, ?_, hmode, ?_, by decide, by decide, by decide⟩
  · intro mode h
    simp only [parseMode, h, if_true]
  · intro mode h
    have hlen : ¬ byteLen mode < 5 := by omega
    by_cases ht : mode.take 5 = "mode=".toList
    · have hm : mode = "mode=".toList ++ mode.drop 5 := by
        rw [← ht, List.take_append_drop]
      rw [hm, hmode]
      by_cases hf : flavours (stringsSplit (mode.drop 5) '+') = []
      · exact ⟨_, by rw [if_pos hf], by decide⟩
      · exact ⟨_, by rw [if_neg hf], hf⟩
    · exact ⟨defaultOutputTypes, by simp only [parseMode, hlen, ht, if_false], by decide⟩
  · intro mode h ht
    have hlen : ¬ byteLen mode < 5 := by omega
    simp only [parseMode, hlen, ht, if_false]

end SqlToStruct
